import Mathlib

/-!
Verification of the alias-resolution and match-highlighting engine of the
pen_swap-monitor repository (`src/utils/text_utils.py`).

Python strings are modelled as `List Char` (`Str`); Python `dict`s are
modelled as association lists in insertion order (first entry wins on
lookup, updates keep the entry position, new keys are appended — exactly
the observable semantics of a Python `dict`).  Python `set`s of aliases
are modelled as duplicate-free lists in insertion order; iteration order
of a Python set is unspecified, the list order is one admissible order.
Floating-point penalty factors are modelled as exact rationals.
-/

/-- Python `str` as a list of characters. -/
abbrev Str := List Char

/-- Python `\s` (whitespace) for the ASCII range. -/
def isPySpace (c : Char) : Bool :=
  c = ' ' || c = '\t' || c = '\n' || c = '\r' || c = '\x0b' || c = '\x0c'

/-- Python `\w` (word character) for the ASCII range: alphanumeric or underscore. -/
def isWordChar (c : Char) : Bool :=
  c.isAlphanum || c = '_'

/-- Python `str.lower()` (ASCII range). -/
def lowerStr (s : Str) : Str := s.map Char.toLower

/-- Python `str.strip()`: remove leading and trailing whitespace. -/
def strip (s : Str) : Str :=
  ((s.dropWhile isPySpace).reverse.dropWhile isPySpace).reverse

/-- Auxiliary for `splitWs`: accumulate the current (reversed) token. -/
def splitWsAux : Str → Str → List Str
  | [], acc => if acc = [] then [] else [acc.reverse]
  | c :: rest, acc =>
    if isPySpace c then
      (if acc = [] then splitWsAux rest [] else acc.reverse :: splitWsAux rest [])
    else splitWsAux rest (c :: acc)

/-- Python `str.split()` with no argument: split on runs of whitespace, no empty tokens. -/
def splitWs (s : Str) : List Str := splitWsAux s []

/-- Python `' '.join(words)`. -/
def joinSpace : List Str → Str
  | [] => []
  | [w] => w
  | w :: ws => w ++ ' ' :: joinSpace ws

mutual
/-- Auxiliary for `normalize_text`: `re.sub(r'\s+', ' ', s)` — collapse every
run of whitespace to a single space. -/
def collapseWs : Str → Str
  | [] => []
  | c :: rest => if isPySpace c then ' ' :: collapseSkip rest else c :: collapseWs rest

/-- Skip the remainder of a whitespace run. -/
def collapseSkip : Str → Str
  | [] => []
  | c :: rest => if isPySpace c then collapseSkip rest else c :: collapseWs rest
end

/-- `normalize_text` from `text_utils.py`: lowercase, drop characters that are
neither word characters nor whitespace, collapse whitespace runs, strip. -/
def normalize_text (s : Str) : Str :=
  strip (collapseWs ((lowerStr s).filter (fun c => isWordChar c || isPySpace c)))

/-- Boolean list-prefix test (Python `str.startswith` / the prefix check of `find`). -/
def prefixB : Str → Str → Bool
  | [], _ => true
  | _ :: _, [] => false
  | a :: s, b :: t => a = b && prefixB s t

/-- Auxiliary scan for `strFind`: first index `≥ i` where `needle` occurs. -/
def strFindCore (needle : Str) : Str → Nat → Option Nat
  | [], i => if needle = [] then some i else none
  | c :: rest, i => if prefixB needle (c :: rest) then some i else strFindCore needle rest (i + 1)

/-- Python `hay.find(needle, start)`: the lowest index `≥ start` at which `needle`
occurs in `hay` (`none` for Python's `-1`). -/
def strFind (hay needle : Str) (start : Nat) : Option Nat :=
  if hay.length < start then none else strFindCore needle (hay.drop start) start

/-- Python `needle in hay` (substring containment). -/
def substrB (needle hay : Str) : Bool := (strFind hay needle 0).isSome

/-- Python `s[a:b]` for `0 ≤ a ≤ b`. -/
def pySlice (s : Str) (a b : Nat) : Str := (s.drop a).take (b - a)

/-- Python `s.rfind(c)`: the highest index of character `c` (`none` for `-1`). -/
def rfindChar (s : Str) (c : Char) : Option Nat :=
  ((List.range s.length).filter (fun i => s.get? i = some c)).getLast?

/-! ### Association lists: the observable semantics of a Python `dict` -/

/-- First-match lookup (Python `d.get(k)` / `k in d`). -/
def alookup {β : Type} : List (Str × β) → Str → Option β
  | [], _ => none
  | (k', v) :: rest, k => if k' = k then some v else alookup rest k

/-- Python `d[k] = v`: overwrite in place when the key exists, else append. -/
def aupdate {β : Type} (l : List (Str × β)) (k : Str) (v : β) : List (Str × β) :=
  if (alookup l k).isSome then l.map (fun p => if p.1 = k then (k, v) else p)
  else l ++ [(k, v)]

/-- Python `del d[k]`. -/
def aerase {β : Type} (l : List (Str × β)) (k : Str) : List (Str × β) :=
  l.filter (fun p => p.1 ≠ k)

/-! ### `BidirectionalMap` from `text_utils.py` -/

/-- The bidirectional pen-name index: `_one_to_many` maps a formal name to its
set of aliases, `_many_to_one` maps an alias back to its formal name. -/
structure BidirectionalMap where
  one_to_many : List (Str × List Str)
  many_to_one : List (Str × Str)
deriving DecidableEq

/-- The freshly constructed (empty) map. -/
def BidirectionalMap.empty : BidirectionalMap := ⟨[], []⟩

/-- `BidirectionalMap.add`: normalize key (strip) and value (strip + lower);
if the value is owned by a different key, strip it from the old owner
(deleting the owner when its set becomes empty); then insert the pair into
both directions.  (The logged warning is I/O only and is not modelled.) -/
def BidirectionalMap.add (m : BidirectionalMap) (key value : Str) : BidirectionalMap :=
  let key := strip key
  let value := lowerStr (strip value)
  let m1 : BidirectionalMap :=
    match alookup m.many_to_one value with
    | some old_key =>
      if old_key ≠ key then
        match alookup m.one_to_many old_key with
        | some vs =>
          if value ∈ vs then
            let vs' := vs.filter (fun v => v ≠ value)
            if vs' = [] then ⟨aerase m.one_to_many old_key, m.many_to_one⟩
            else ⟨aupdate m.one_to_many old_key vs', m.many_to_one⟩
          else m
        | none => m
      else m
    | none => m
  let current := (alookup m1.one_to_many key).getD []
  let newSet := if value ∈ current then current else current ++ [value]
  ⟨aupdate m1.one_to_many key newSet, aupdate m1.many_to_one value key⟩

/-- Phase 1 of `validate`: every `value → key` entry of the reverse map must
appear in the forward map (iterates a snapshot of `_many_to_one.items()`
while updating the live forward map). -/
def validatePhase1 : List (Str × Str) → List (Str × List Str) → List (Str × List Str)
  | [], otm => otm
  | (value, key) :: rest, otm =>
    let otm' :=
      match alookup otm key with
      | none => otm ++ [(key, [value])]
      | some vs => if value ∈ vs then otm else aupdate otm key (vs ++ [value])
    validatePhase1 rest otm'

/-- Phase 3 inner loop of `validate`: for one forward key, walk a snapshot of
its value set against the live reverse map: synthesize missing reverse
entries, and remove values that the reverse map assigns to a different key. -/
def validatePhase3Val (key : Str) :
    List Str → List (Str × List Str) × List (Str × Str) → List (Str × List Str) × List (Str × Str)
  | [], st => st
  | value :: rest, (otm, mto) =>
    let st' :=
      match alookup mto value with
      | none => (otm, mto ++ [(value, key)])
      | some k =>
        if k ≠ key then
          match alookup otm key with
          | some vs => (aupdate otm key (vs.filter (fun v => v ≠ value)), mto)
          | none => (otm, mto)
        else (otm, mto)
    validatePhase3Val key rest st'

/-- Phase 3 outer loop of `validate` over a snapshot of the forward keys. -/
def validatePhase3 : List Str →
    List (Str × List Str) × List (Str × Str) → List (Str × List Str) × List (Str × Str)
  | [], st => st
  | key :: rest, st =>
    validatePhase3 rest (validatePhase3Val key ((alookup st.1 key).getD []) st)

/-- `BidirectionalMap.validate`: the self-healing pass, in source order —
(1) reverse entries missing from the forward map are synthesized,
(2) forward keys with empty sets are deleted,
(3) forward values missing from the reverse map are synthesized and forward
values owned elsewhere by the reverse map are removed.
(The returned human-readable list of fixes is log output and is not modelled;
only the repaired state is.) -/
def BidirectionalMap.validate (m : BidirectionalMap) : BidirectionalMap :=
  let otm1 := validatePhase1 m.many_to_one m.one_to_many
  let otm2 := otm1.filter (fun p => p.2 ≠ [])
  let st := validatePhase3 (otm2.map (fun p => p.1)) (otm2, m.many_to_one)
  ⟨st.1, st.2⟩

/-- `get_values`: read accessor; runs the self-healing pass (`_auto_repair`)
before the lookup, and returns the empty set for an absent key. -/
def BidirectionalMap.get_values (m : BidirectionalMap) (key : Str) : List Str :=
  (alookup m.validate.one_to_many key).getD []

/-- `get_key`: read accessor; runs the self-healing pass before the lookup. -/
def BidirectionalMap.get_key (m : BidirectionalMap) (value : Str) : Option Str :=
  alookup m.validate.many_to_one value

/-- `keys()`: read accessor; runs the self-healing pass, then lists the forward keys. -/
def BidirectionalMap.keysList (m : BidirectionalMap) : List Str :=
  m.validate.one_to_many.map (fun p => p.1)

/-- One call in a call sequence against the index (claim C1 quantifies over these). -/
inductive IndexOp where
  | add (key value : Str)
  | validate
deriving DecidableEq

/-- Apply one `add`/`validate` call. -/
def applyOp (m : BidirectionalMap) : IndexOp → BidirectionalMap
  | IndexOp.add k v => m.add k v
  | IndexOp.validate => m.validate

/-- Run a sequence of `add`/`validate` calls (first to last) on the initially
empty index. -/
def runOps (ops : List IndexOp) : BidirectionalMap :=
  ops.foldl applyOp BidirectionalMap.empty

/-! ### Fuzzy similarity scores

The repository calls `thefuzz` (`fuzz.ratio`, `fuzz.partial_ratio`), an
external dependency whose code is not part of this repository. -/

/-- One step of the dynamic-programming row computation for `lev2`: given the
previous row (as the suffix starting at the diagonal cell) and the value just
computed in the current row, produce the rest of the current row. -/
def levRowGo (a : Char) : List Char → List Nat → Nat → List Nat
  | [], _, _ => []
  | b :: bs, pr, cur =>
    match pr with
    | diag :: rest =>
      let v := min (min (rest.headD 0 + 1) (cur + 1)) (diag + (if a = b then 0 else 2))
      v :: levRowGo a bs rest v
    | [] => []

/-- Modelled from the spec: the Levenshtein distance with substitution cost 2
(insert/delete cost 1), computed row by row. -/
def lev2 (s t : Str) : Nat :=
  (s.foldl (fun row a =>
    let first := row.headD 0 + 1
    first :: levRowGo a t row first) (List.range (t.length + 1))).getLastD 0

/-- Modelled from the spec: the 0–100 edit-distance ratio (`fuzz.ratio`). -/
def fuzzRatio (s t : Str) : Nat :=
  let lensum := s.length + t.length
  if lensum = 0 then 100
  else (200 * (lensum - lev2 s t) + lensum) / (2 * lensum)

/-- Modelled from the spec: `partialRatioScore` is a "best-substring-alignment
similarity measure in the 0–100 range" (`fuzz.partial_ratio`); here realised as
the best `fuzzRatio` of the shorter string against every window of the longer
string of the shorter string's length. -/
def fuzzPartialRatio (s t : Str) : Nat :=
  let shorter := if s.length ≤ t.length then s else t
  let longer := if s.length ≤ t.length then t else s
  let m := shorter.length
  ((List.range (longer.length - m + 1)).map
    (fun i => fuzzRatio shorter (pySlice longer i (i + m)))).foldr max 0

/-! ### `find_matching_pen_names` from `text_utils.py` -/

/-- The `match_type` values tracked while scoring one formal name. -/
inductive MatchType where
  | exact_formal
  | exact_alias
  | normalized_formal
  | normalized_alias
  | exact_word_match
  | formal_word_match
  | fuzzy
deriving DecidableEq

/-- The `match_type_priority` ranking table used for sorting. -/
def match_type_priority : MatchType → Nat
  | MatchType.exact_formal => 1
  | MatchType.exact_alias => 2
  | MatchType.normalized_formal => 3
  | MatchType.normalized_alias => 4
  | MatchType.exact_word_match => 5
  | MatchType.formal_word_match => 6
  | MatchType.fuzzy => 7

/-- PRIORITY 4 of `find_matching_pen_names`: the first-match loop over the alias
set, which `break`s at the first alias that is either normalized-equal to the
query (97) or contains the query as a whitespace token (96). -/
def tier4Loop (q : Str) : List Str → Option (ℚ × MatchType)
  | [] => none
  | c :: rest =>
    let cn := normalize_text c
    if cn = q then some (97, MatchType.normalized_alias)
    else if splitWs cn ≠ [] ∧ q ∈ splitWs cn then some (96, MatchType.exact_word_match)
    else tier4Loop q rest

/-- PRIORITY 6 of `find_matching_pen_names`: the per-string fuzzy score.  The
source repeats this block once for aliases (constants 94/90/80) and once for
the formal name (93/89/79); the constants are parameters here.  `q` and `c` are
the normalized query and candidate; `inputLen` is the raw query length.
Float penalties are modelled as exact rationals. -/
def fuzzyCandidateScore (wordScore startScore subScore : ℚ) (inputLen : Nat) (q c : Str) : ℚ :=
  if inputLen ≤ 4 ∧ substrB q c then
    if q ∈ splitWs c then wordScore
    else if (splitWs c).any (fun w => prefixB q w) then startScore
    else subScore
  else
    let diff : Int := (q.length : Int) - (c.length : Int)
    if 5 < diff then ((fuzzRatio q c : ℚ)) * max (1/2 : ℚ) (1 - (diff : ℚ) * (5/100))
    else if 0 < diff then
      ((max (fuzzRatio q c) (fuzzPartialRatio q c) : Nat) : ℚ) * max (4/5 : ℚ) (1 - (diff : ℚ) * (1/10))
    else ((max (fuzzRatio q c) (fuzzPartialRatio q c) : Nat) : ℚ)

/-- PRIORITY 1: exact case-insensitive match with the formal name (score 100),
starting from the initial state `(0, "fuzzy")`. -/
def tier1Score (ql formal_name : Str) : ℚ × MatchType :=
  if lowerStr formal_name = ql then (100, MatchType.exact_formal) else (0, MatchType.fuzzy)

/-- PRIORITY 2: exact case-insensitive match with any alias (score 99). -/
def tier2Score (ql : Str) (casuals : List Str) (s : ℚ × MatchType) : ℚ × MatchType :=
  if s.1 < 100 then
    if casuals.any (fun c => lowerStr c = ql) then ((99 : ℚ), MatchType.exact_alias) else s
  else s

/-- PRIORITY 3: normalized exact match with the formal name (score 98). -/
def tier3Score (q formal_name : Str) (s : ℚ × MatchType) : ℚ × MatchType :=
  if s.1 < 99 then
    if normalize_text formal_name = q then ((98 : ℚ), MatchType.normalized_formal) else s
  else s

/-- PRIORITY 4: the alias loop `tier4Loop` (scores 97/96). -/
def tier4Score (q : Str) (casuals : List Str) (s : ℚ × MatchType) : ℚ × MatchType :=
  if s.1 < 98 then (tier4Loop q casuals).getD s else s

/-- PRIORITY 5: exact word match in the formal name (score 95). -/
def tier5Score (q formal_name : Str) (s : ℚ × MatchType) : ℚ × MatchType :=
  if s.1 < 96 then
    if q ∈ splitWs (normalize_text formal_name) then ((95 : ℚ), MatchType.formal_word_match)
    else s
  else s

/-- PRIORITY 6: fuzzy fallback over all aliases and the formal name itself. -/
def tier6Score (inputLen : Nat) (q formal_name : Str) (casuals : List Str)
    (s : ℚ × MatchType) : ℚ × MatchType :=
  if s.1 < 95 then
    (max (casuals.foldl
        (fun acc c => max acc (fuzzyCandidateScore 94 90 80 inputLen q (normalize_text c))) s.1)
      (fuzzyCandidateScore 93 89 79 inputLen q (normalize_text formal_name)), s.2)
  else s

/-- The body of the main loop of `find_matching_pen_names`: the best score and
match type for one formal name, computed by the tier cascade PRIORITY 1–6. -/
def candidateScore (pm : BidirectionalMap) (user_input : Str) (formal_name : Str) :
    ℚ × MatchType :=
  let q := normalize_text user_input
  let ql := strip (lowerStr user_input)
  let casuals := pm.get_values formal_name
  tier6Score user_input.length q formal_name casuals
    (tier5Score q formal_name
      (tier4Score q casuals
        (tier3Score q formal_name
          (tier2Score ql casuals
            (tier1Score ql formal_name)))))

/-- Stable insertion into a sorted list: `x` is placed before the first element
it compares `le` to, so an element keeps its place ahead of later equal ones. -/
def insertLe {α : Type} (le : α → α → Bool) (x : α) : List α → List α
  | [] => [x]
  | y :: ys => if le x y then x :: y :: ys else y :: insertLe le x ys

/-- Stable sort (CPython's `sorted` is a stable sort; for a total preorder any
two stable sorts agree, so insertion sort is an exact model of its output). -/
def stableSort {α : Type} (le : α → α → Bool) : List α → List α
  | [] => []
  | x :: xs => insertLe le x (stableSort le xs)

/-- The sort key `(-score, match_type_priority)` of `find_matching_pen_names`,
as a boolean "less or equal" on scored candidates. -/
def candLe (x y : Str × ℚ × MatchType) : Bool :=
  decide (y.2.1 < x.2.1 ∨ (x.2.1 = y.2.1 ∧ match_type_priority x.2.2 ≤ match_type_priority y.2.2))

/-- `find_matching_pen_names`: empty input gives no matches; short raw inputs
boost the threshold to at least 85; every formal name is scored by the tier
cascade, kept when the score reaches the threshold, sorted by
`(-score, match_type_priority)` (a stable sort, as in CPython), and the top
`max_results` formal names are returned. -/
def find_matching_pen_names (pm : BidirectionalMap) (user_input : Str)
    (max_results : Nat) (threshold : ℚ) : List Str :=
  if user_input = [] then []
  else
    let eff := if user_input.length ≤ 4 then max threshold 85 else threshold
    let scores := pm.keysList.filterMap (fun f =>
      let sc := candidateScore pm user_input f
      if eff ≤ sc.1 then some (f, sc) else none)
    let sorted := stableSort candLe scores
    (sorted.take max_results).map (fun p => p.1)

/-- `get_all_search_terms_for_pens`: the formal names plus all their aliases,
deduplicated (Python's `list(set(...))`; modelled as first-occurrence dedup). -/
def get_all_search_terms_for_pens (pm : BidirectionalMap) (formal_names : List Str) : List Str :=
  (formal_names.flatMap (fun f => f :: pm.get_values f)).dedup

/-! ### `find_all_match_positions` from `text_utils.py` -/

/-- The `type` field of a match dictionary. -/
inductive SpanType where
  | exact
  | normalized
  | fuzzy
deriving DecidableEq

/-- One match dictionary `{'start', 'end', 'matched_text', 'type'}`; `end` is a
Lean keyword, so the field is written `«end»`. -/
structure Span where
  start : Nat
  «end» : Nat
  matched_text : Str
  type : SpanType
deriving DecidableEq

/-- The `while True` scan of PRIORITY 1: repeatedly `find` from `start_pos`,
then continue from the hit position plus one (so overlapping occurrences are
all collected).  The fuel is an upper bound on the iteration count; hay length
plus one always suffices, `findOccurrences` passes exactly that. -/
def findOccurrencesAux (needle hay : Str) : Nat → Nat → List Nat
  | _, 0 => []
  | start, fuel + 1 =>
    match strFind hay needle start with
    | none => []
    | some pos => pos :: findOccurrencesAux needle hay (pos + 1) fuel

/-- All hit positions of the `find`/`start_pos + 1` scan. -/
def findOccurrences (needle hay : Str) : List Nat :=
  findOccurrencesAux needle hay 0 (hay.length + 1)

/-- PRIORITY 1 of `find_all_match_positions`: every case-insensitive verbatim
hit of the model in the text, as `exact` spans. -/
def exactMatches (model text : Str) : List Span :=
  (findOccurrences (lowerStr model) (lowerStr text)).map (fun pos =>
    ⟨pos, pos + model.length, pySlice text pos (pos + model.length), SpanType.exact⟩)

/-- PRIORITY 2 of `find_all_match_positions`: slide a window of
`len(model.split())` tokens over `text.split()`; where the normalized window
text equals the normalized model, record a span at `text.find(window_text)`
(the first occurrence of the window text!), deduplicating starts within 5
characters of an already recorded span. -/
def normalizedMatches (model text : Str) : List Span :=
  let nm := normalize_text model
  let words_to_find := splitWs model
  let text_words := splitWs text
  (List.range (text_words.length + 1 - words_to_find.length)).foldl (fun acc i =>
    let window_text := joinSpace ((text_words.drop i).take words_to_find.length)
    if normalize_text window_text = nm then
      match strFind text window_text 0 with
      | some window_start =>
        if acc.any (fun mt => ((mt.start : Int) - (window_start : Int)).natAbs < 5) then acc
        else acc ++ [⟨window_start, window_start + window_text.length, window_text,
          SpanType.normalized⟩]
      | none => acc
    else acc) []

/-- PRIORITY 3 of `find_all_match_positions` for single-token models: scan the
text tokens, keeping each whose ratio against the normalized model reaches the
threshold; `current_pos` advances by token length plus one between tokens. -/
def fuzzyWordLoop (nm text : Str) (threshold : Nat) : List Str → Nat → List Span
  | [], _ => []
  | w :: ws, current_pos =>
    let rest := fuzzyWordLoop nm text threshold ws (current_pos + w.length + 1)
    if threshold ≤ fuzzRatio nm (normalize_text w) then
      match strFind text w current_pos with
      | some word_start => ⟨word_start, word_start + w.length, w, SpanType.fuzzy⟩ :: rest
      | none => rest
    else rest

/-- Inner loop of the multi-token fuzzy tier: all windows of one size, kept
when their partial-ratio reaches the threshold, deduplicating starts within 5
characters of an already recorded span. -/
def fuzzyWindowInner (nm text : Str) (threshold : Nat) (window_size : Nat)
    (acc0 : List Span) : List Span :=
  (List.range (text.length + 1 - window_size)).foldl (fun ms i =>
    let substring := pySlice text i (i + window_size)
    if threshold ≤ fuzzPartialRatio nm (normalize_text substring) then
      if ms.any (fun mt => ((mt.start : Int) - (i : Int)).natAbs < 5) then ms
      else ms ++ [⟨i, i + window_size, substring, SpanType.fuzzy⟩]
    else ms) acc0

/-- Python `range(lo, hi)` over integers. -/
def intRange (lo hi : Int) : List Int :=
  (List.range (hi - lo).toNat).map (fun k => lo + (k : Int))

/-- PRIORITY 3 of `find_all_match_positions` for multi-token models: guarded by
the partial-ratio of the whole normalized text, then window sizes
`len(model)-3 .. len(model)+9` (skipping non-positive sizes). -/
def fuzzyMultiwordMatches (model text : Str) (threshold : Nat) (nm nt : Str) : List Span :=
  if threshold ≤ fuzzPartialRatio nm nt then
    (intRange ((model.length : Int) - 3) ((model.length : Int) + 10)).foldl (fun ms wsz =>
      if wsz ≤ 0 then ms
      else fuzzyWindowInner nm text threshold wsz.toNat ms) []
  else []

/-- `find_all_match_positions`: empty model or text give no matches; otherwise
the exact, normalized and fuzzy tiers short-circuit in that order. -/
def find_all_match_positions (model text : Str) (threshold : Nat) : List Span :=
  if model = [] ∨ text = [] then []
  else
    let ex := exactMatches model text
    if ex ≠ [] then ex
    else
      let norm := normalizedMatches model text
      if norm ≠ [] then norm
      else
        let nm := normalize_text model
        if ¬ (' ' ∈ nm) then fuzzyWordLoop nm text threshold (splitWs text) 0
        else fuzzyMultiwordMatches model text threshold nm (normalize_text text)

/-! ### `format_bolded_excerpt`, `truncate_discord_message` and
`format_discord_message` from `text_utils.py` -/

/-- The occurrence loop of `format_bolded_excerpt`: like `findOccurrencesAux`,
but additionally guarded by `while start_index < len(text)`. -/
def boldOccurrencesAux (needle hay : Str) : Nat → Nat → List Nat
  | _, 0 => []
  | start, fuel + 1 =>
    if start < hay.length then
      match strFind hay needle start with
      | none => []
      | some pos => pos :: boldOccurrencesAux needle hay (pos + 1) fuel
    else []

/-- Lexicographic order on index pairs (Python tuple `sort`). -/
def pairLe (a b : Nat × Nat) : Bool :=
  decide (a.1 < b.1 ∨ (a.1 = b.1 ∧ a.2 ≤ b.2))

/-- Merge sorted, possibly overlapping or adjacent index segments. -/
def mergeSegmentsAux : Nat × Nat → List (Nat × Nat) → List (Nat × Nat)
  | cur, [] => [cur]
  | cur, (next_start, next_end) :: rest =>
    if next_start ≤ cur.2 then mergeSegmentsAux (cur.1, max cur.2 next_end) rest
    else cur :: mergeSegmentsAux (next_start, next_end) rest

/-- The merge pass of `format_bolded_excerpt`. -/
def mergeSegments : List (Nat × Nat) → List (Nat × Nat)
  | [] => []
  | first :: rest => mergeSegmentsAux first rest

/-- The reconstruction pass of `format_bolded_excerpt`: text before each bold
segment, the segment wrapped in `**`, then the remaining text. -/
def buildBolded (text : Str) : List (Nat × Nat) → Nat → Str
  | [], last_pos => text.drop last_pos
  | (s, e) :: rest, last_pos =>
    pySlice text last_pos s ++ ('*' :: '*' :: pySlice text s e) ++ ('*' :: '*' :: [])
      ++ buildBolded text rest e

/-- `format_bolded_excerpt`: find all case-insensitive occurrences of every
term, sort the index pairs, merge overlapping/adjacent segments, and wrap each
merged segment in `**`. -/
def format_bolded_excerpt (text : Str) (terms_to_bold : List Str) : Str :=
  if text = [] ∨ terms_to_bold = [] then text
  else
    let bold_indices := terms_to_bold.flatMap (fun term =>
      (boldOccurrencesAux (lowerStr term) (lowerStr text) 0 (text.length + 1)).map
        (fun pos => (pos, pos + term.length)))
    if bold_indices = [] then text
    else buildBolded text (mergeSegments (stableSort pairLe bold_indices)) 0

/-- Earliest index of `**` in a string (`none` when absent). -/
def findBoldClose : Str → Option Nat
  | [] => none
  | '*' :: '*' :: _ => some 0
  | _ :: rest => (findBoldClose rest).map (fun i => i + 1)

/-- The scan of `re.sub(r'\*\*(.*?)\*\*', r'\1', s)`: at `**`, a match needs a
closing `**` with no newline before it (`.` does not cross lines); the
non-greedy group takes the earliest close.  When the opener cannot be closed,
no match can start at either of its two stars, so both are emitted.  Fuel
`s.length` suffices since every step consumes at least one character. -/
def stripBoldAux : Nat → Str → Str
  | 0, s => s
  | _ + 1, [] => []
  | fuel + 1, '*' :: '*' :: rest =>
    (match findBoldClose rest with
    | some i =>
      if '\n' ∈ rest.take i then '*' :: '*' :: stripBoldAux fuel rest
      else rest.take i ++ stripBoldAux fuel (rest.drop (i + 2))
    | none => '*' :: '*' :: stripBoldAux fuel rest)
  | fuel + 1, c :: rest => c :: stripBoldAux fuel rest

/-- `re.sub(r'\*\*(.*?)\*\*', r'\1', s)` — strip pre-existing bold markup. -/
def stripBold (s : Str) : Str := stripBoldAux s.length s

/-- The truncation notice appended by `truncate_discord_message`. -/
def truncation_text : Str :=
  ("\n\n... [Message truncated due to length limit]").toList

/-- The fixed placeholder when almost no budget remains (the leading characters
are the mojibake bytes present verbatim in the source file). -/
def too_long_placeholder : Str :=
  ("‚ùå Message too long to display properly.").toList

/-- `truncate_discord_message`: pass short messages through; otherwise cut at
the available budget, prefer the last line break past half the budget, and
append the truncation notice; with under 100 characters of budget return the
fixed placeholder. -/
def truncate_discord_message (message : Str) (max_length : Nat) : Str :=
  if message.length ≤ max_length then message
  else
    let available := max_length - truncation_text.length
    if available < 100 then too_long_placeholder
    else
      let truncated := message.take available
      let truncated' :=
        match rfindChar truncated '\n' with
        | some last_newline =>
          if available / 2 < last_newline then truncated.take last_newline else truncated
        | none => truncated
      truncated' ++ truncation_text

/-- Context-window sort key (`key=lambda x: x['start']`). -/
def winLe (a b : Nat × Nat × Span) : Bool := decide (a.1 ≤ b.1)

/-- The window-merge loop of `format_discord_message`: overlapping windows are
merged (extending the end) and their matches accumulated. -/
def mergeWindowsAux : Nat × Nat × List Span → List (Nat × Nat × Span) →
    List (Nat × Nat × List Span)
  | cur, [] => [cur]
  | (cs, ce, ms), (ns, ne, mt) :: rest =>
    if ns ≤ ce then mergeWindowsAux (cs, max ce ne, ms ++ [mt]) rest
    else (cs, ce, ms) :: mergeWindowsAux (ns, ne, [mt]) rest

/-- `format_discord_message` before the final truncation: separator line,
merged highlighted excerpts joined by `.....`, a blank line, the processing
timestamp and the permalink.  `datetime.now()` is nondeterministic input and is
passed in as the pre-rendered timestamp string `now`. -/
def assembleDiscordMessage (submission_title combined_text : Str)
    (found_pen_models : List Str) (permalink now : Str) : Str :=
  let _ := submission_title  -- the source never reads its title parameter
  let cleaned_text := stripBold combined_text
  let all_matches := found_pen_models.flatMap (fun model =>
    (find_all_match_positions model cleaned_text 90).map (fun mt => (mt, model)))
  let context_windows := all_matches.map (fun pm =>
    (pm.1.start - 10, min cleaned_text.length (pm.1.«end» + 60), pm.1))
  let sortedW := stableSort winLe context_windows
  let merged_windows :=
    match sortedW with
    | [] => []
    | w :: rest => mergeWindowsAux (w.1, w.2.1, [w.2.2]) rest
  let excerpt_parts := merged_windows.map (fun w =>
    let excerpt_clean := joinSpace (splitWs (strip (pySlice cleaned_text w.1 w.2.1)))
    format_bolded_excerpt excerpt_clean (w.2.2.map (fun mt => mt.matched_text)))
  let dots : Str := ['.', '.', '.', '.', '.']
  let message_parts :=
    (List.replicate 30 '=' :: (if excerpt_parts ≠ [] then
      [dots ++ List.intercalate dots excerpt_parts ++ dots] else []))
    ++ [[], ("Processed at: ").toList ++ now,
      '<' :: ("https://www.reddit.com").toList ++ permalink ++ ['>']]
  List.intercalate ['\n'] message_parts

/-- `format_discord_message`: assemble, then truncate to the 2000-character
platform limit. -/
def format_discord_message (submission_title combined_text : Str)
    (found_pen_models : List Str) (permalink now : Str) : Str :=
  truncate_discord_message
    (assembleDiscordMessage submission_title combined_text found_pen_models permalink now) 2000

/-- The per-span consistency property of claim C10. -/
def SpanGood (model text : Str) (sp : Span) : Prop :=
  sp.matched_text = pySlice text sp.start sp.«end» ∧
    (sp.type = SpanType.exact → sp.«end» - sp.start = model.length)

/-- The per-span property of the amended claim C8: a normalized-tier span
records the *first* occurrence in the text of its window text. -/
def NormSpanGood (model text : Str) (sp : Span) : Prop :=
  sp.type = SpanType.normalized →
    strFind text sp.matched_text 0 = some sp.start ∧
    normalize_text sp.matched_text = normalize_text model ∧
    sp.«end» = sp.start + sp.matched_text.length

/-- Strong consistency of a `BidirectionalMap` state: unique keys on both
sides, no empty or duplicated alias sets, and the two maps mutually inverse.
Every state reachable from the empty map through `add`/`validate` satisfies
this. -/
def SC (m : BidirectionalMap) : Prop :=
  (m.one_to_many.map (fun p => p.1)).Nodup ∧
  (m.many_to_one.map (fun p => p.1)).Nodup ∧
  (∀ p ∈ m.one_to_many, p.2 ≠ [] ∧ p.2.Nodup ∧
    ∀ v ∈ p.2, alookup m.many_to_one v = some p.1) ∧
  (∀ q ∈ m.many_to_one, ∃ vs, alookup m.one_to_many q.2 = some vs ∧ q.1 ∈ vs)

/-! ## Theorems -/

/-! ### Basic facts about the string primitives -/

theorem prefixB_iff (p l : Str) : prefixB p l = true ↔ l.take p.length = p := by
  induction p generalizing l with
  | nil => simp [prefixB]
  | cons a s ih =>
    cases l with
    | nil => simp [prefixB]
    | cons b t =>
      simp only [prefixB, List.length_cons, List.take_succ_cons, Bool.and_eq_true,
        decide_eq_true_eq, List.cons.injEq]
      constructor
      · rintro ⟨h1, h2⟩; exact ⟨h1.symm, (ih t).mp h2⟩
      · rintro ⟨h1, h2⟩; exact ⟨h1.symm, (ih t).mpr h2⟩

theorem prefixB_length_le {p l : Str} (h : prefixB p l = true) : p.length ≤ l.length := by
  have := (prefixB_iff p l).mp h
  have hlen := congrArg List.length this
  simp only [List.length_take] at hlen
  omega

theorem pySlice_of_prefixB {s needle : Str} {p : Nat}
    (h : prefixB needle (s.drop p) = true) :
    pySlice s p (p + needle.length) = needle := by
  have := (prefixB_iff needle (s.drop p)).mp h
  simpa [pySlice] using this

theorem strFindCore_some {needle hay : Str} {i p : Nat}
    (h : strFindCore needle hay i = some p) :
    i ≤ p ∧ p ≤ i + hay.length ∧ prefixB needle (hay.drop (p - i)) = true ∧
      ∀ j, i ≤ j → j < p → prefixB needle (hay.drop (j - i)) = false := by
  induction hay generalizing i with
  | nil =>
    simp only [strFindCore] at h
    split at h
    · rename_i hnil
      injection h with h
      subst h
      refine ⟨le_refl _, by simp, by simp [hnil, prefixB], ?_⟩
      intro j h1 h2
      omega
    · exact absurd h (by simp)
  | cons c rest ih =>
    simp only [strFindCore] at h
    split at h
    · rename_i hpre
      injection h with h
      subst h
      refine ⟨le_refl _, by simp only [List.length_cons]; omega, by simpa using hpre, ?_⟩
      intro j h1 h2; omega
    · rename_i hpre
      obtain ⟨h1, h2, h3, h4⟩ := ih h
      refine ⟨by omega, by simp only [List.length_cons] at h2 ⊢; omega, ?_, ?_⟩
      · have : p - i = (p - (i + 1)) + 1 := by omega
        rw [this]
        simpa using h3
      · intro j hj1 hj2
        rcases Nat.eq_or_lt_of_le hj1 with hj | hj
        · subst hj
          simpa using Bool.eq_false_iff.mpr (fun hc => by simp [hc] at hpre)
        · have := h4 j hj hj2
          have hji : j - i = (j - (i + 1)) + 1 := by omega
          rw [hji]
          simpa using this

theorem strFind_some {hay needle : Str} {start p : Nat}
    (h : strFind hay needle start = some p) :
    start ≤ p ∧ p ≤ hay.length ∧ prefixB needle (hay.drop p) = true ∧
      ∀ j, start ≤ j → j < p → prefixB needle (hay.drop j) = false := by
  unfold strFind at h
  split at h
  · exact absurd h (by simp)
  · rename_i hle
    have hstart : start ≤ hay.length := by omega
    obtain ⟨h1, h2, h3, h4⟩ := strFindCore_some h
    have hdd : ∀ j, start ≤ j → (hay.drop start).drop (j - start) = hay.drop j := by
      intro j hj
      rw [List.drop_drop]
      congr 1
      omega
    refine ⟨h1, ?_, ?_, ?_⟩
    · have := h2
      simp only [List.length_drop] at this
      omega
    · rw [← hdd p h1]; exact h3
    · intro j hj1 hj2
      rw [← hdd j hj1]
      exact h4 j hj1 hj2

theorem strFind_none {hay needle : Str} {start : Nat}
    (h : strFind hay needle start = none) (hne : needle ≠ []) :
    ∀ j, start ≤ j → prefixB needle (hay.drop j) = false := by
  intro j hj
  by_cases hjlen : hay.length < j
  · have : hay.drop j = [] := List.drop_eq_nil_of_le (by omega)
    rw [this]
    cases needle with
    | nil => exact absurd rfl hne
    | cons a s => simp [prefixB]
  · unfold strFind at h
    split at h
    · rename_i hlt
      omega
    · rename_i hle
      -- scan the core for a contradiction
      by_contra hc
      have hpre : prefixB needle (hay.drop j) = true := by
        cases hb : prefixB needle (hay.drop j) with
        | true => rfl
        | false => exact absurd hb hc
      -- show strFindCore must succeed somewhere, contradicting `none`
      have : ∀ (l : Str) (i : Nat), (∃ k, i ≤ k ∧ prefixB needle (l.drop (k - i)) = true ∧
          k - i ≤ l.length) → strFindCore needle l i ≠ none := by
        intro l
        induction l with
        | nil =>
          intro i ⟨k, hk1, hk2, hk3⟩
          simp only [List.length_nil, Nat.le_zero] at hk3
          simp only [List.drop_nil] at hk2
          have : needle = [] := by
            cases needle with
            | nil => rfl
            | cons a s => simp [prefixB] at hk2
          simp [strFindCore, this]
        | cons c rest ih =>
          intro i ⟨k, hk1, hk2, hk3⟩
          simp only [strFindCore]
          split
          · simp
          · rename_i hnp
            apply ih
            have hki : k ≠ i := by
              intro hh
              subst hh
              simp only [Nat.sub_self, List.drop_zero] at hk2
              simp [hk2] at hnp
            refine ⟨k, by omega, ?_, ?_⟩
            · have : k - (i + 1) + 1 = k - i := by omega
              rw [← this] at hk2
              simpa using hk2
            · simp only [List.length_cons] at hk3
              omega
      have hlen : j ≤ hay.length := by omega
      refine this (hay.drop start) start ⟨j, hj, ?_, ?_⟩ h
      · rw [List.drop_drop]
        have hd : start + (j - start) = j := by omega
        rw [hd]
        exact hpre
      · simp only [List.length_drop]
        omega

/-! ### Claim C9 — empty inputs give empty results -/

/-- C9: matching and location functions return the empty result for empty
input: `find_matching_pen_names` on the empty query returns `[]` for every
index state, and `find_all_match_positions` returns `[]` when the term or the
text is empty. -/
theorem C9_empty_inputs_give_empty_results :
    ∀ (pm : BidirectionalMap) (n : Nat) (t : ℚ) (th : Nat) (model text : Str),
      find_matching_pen_names pm [] n t = [] ∧
      find_all_match_positions [] text th = [] ∧
      find_all_match_positions model [] th = [] := by
  intro pm n t th model text
  refine ⟨rfl, ?_, ?_⟩
  · unfold find_all_match_positions
    rw [if_pos (Or.inl rfl)]
  · unfold find_all_match_positions
    rw [if_pos (Or.inr rfl)]

/-! ### Claim C6 — `validate` and empty alias sets -/

/-- C6 (failing input for the code bug): on the drifted state with forward map
`{'A': {'x'}}` and reverse map `{'x': 'B'}`, `validate()` returns a state in
which the formal name `'A'` still owns an *empty* alias set: phase 3 removes
`'x'` from `'A'` (its reverse owner is `'B'`) after the orphan-pruning phase
has already run, so the resulting orphan is not pruned, contradicting the
documented invariant that no formal name owns an empty alias set. -/
theorem C6_validate_leaves_orphaned_empty_key :
    (BidirectionalMap.validate ⟨[(['A'], [['x']])], [(['x'], ['B'])]⟩).one_to_many
      = [(['A'], ([] : List Str)), (['B'], [['x']])] := by decide

/-! ### Claim C4 — `format_discord_message` is bounded by the platform limit -/

theorem truncate_length_le (message : Str) :
    (truncate_discord_message message 2000).length ≤ 2000 := by
  unfold truncate_discord_message
  split
  · assumption
  · rename_i hlong
    have h45 : truncation_text.length = 45 := by decide
    rw [h45]
    norm_num
    split
    · rename_i idx hidx
      split
      · simp only [List.length_append, List.length_take, h45]
        omega
      · simp only [List.length_append, List.length_take, h45]
        omega
    · simp only [List.length_append, List.length_take, h45]
      omega

/-- C4: the formatted Discord message never exceeds the 2000-character platform
limit, for arbitrary (arbitrarily long) inputs; and whenever the untruncated
rendering (`assembleDiscordMessage`) is within the limit, the output equals
that rendering exactly. -/
theorem C4_format_message_bounded_and_exact :
    ∀ (title text : Str) (found : List Str) (permalink now : Str),
      (format_discord_message title text found permalink now).length ≤ 2000 ∧
      ((assembleDiscordMessage title text found permalink now).length ≤ 2000 →
        format_discord_message title text found permalink now
          = assembleDiscordMessage title text found permalink now) := by
  intro title text found permalink now
  constructor
  · exact truncate_length_le _
  · intro hle
    unfold format_discord_message truncate_discord_message
    rw [if_pos hle]

/-- Witness for C4 at a concrete input whose untruncated rendering is within
the limit. -/
theorem C4_format_message_bounded_and_exact_witness :
    format_discord_message ("t".toList) ("hello".toList) [] ("/x".toList) ("2023".toList)
      = assembleDiscordMessage ("t".toList) ("hello".toList) [] ("/x".toList) ("2023".toList) :=
  (C4_format_message_bounded_and_exact ("t".toList) ("hello".toList) [] ("/x".toList)
    ("2023".toList)).2 (by decide)

/-! ### The exact-occurrence scan -/

theorem prefixB_drop_long {needle hay : Str} (hne : needle ≠ []) {p : Nat}
    (hp : hay.length < p) : prefixB needle (hay.drop p) = false := by
  have : hay.drop p = [] := List.drop_eq_nil_of_le (by omega)
  rw [this]
  cases needle with
  | nil => exact absurd rfl hne
  | cons a s => simp [prefixB]

theorem findOccurrencesAux_mem {needle hay : Str} (hne : needle ≠ []) :
    ∀ (fuel start : Nat), hay.length + 1 ≤ start + fuel →
      ∀ p, p ∈ findOccurrencesAux needle hay start fuel ↔
        (start ≤ p ∧ prefixB needle (hay.drop p) = true) := by
  intro fuel
  induction fuel with
  | zero =>
    intro start hf p
    simp only [findOccurrencesAux, List.not_mem_nil, false_iff, not_and]
    intro hsp
    rw [prefixB_drop_long hne (by omega)]
    simp
  | succ fuel ih =>
    intro start hf p
    simp only [findOccurrencesAux]
    cases h : strFind hay needle start with
    | none =>
      simp only [List.not_mem_nil, false_iff, not_and]
      intro hsp
      rw [strFind_none h hne p hsp]
      simp
    | some pos =>
      obtain ⟨h1, h2, h3, h4⟩ := strFind_some h
      rw [List.mem_cons, ih (pos + 1) (by omega) p]
      constructor
      · rintro (rfl | ⟨hp1, hp2⟩)
        · exact ⟨h1, h3⟩
        · exact ⟨by omega, hp2⟩
      · rintro ⟨hp1, hp2⟩
        rcases Nat.lt_trichotomy p pos with hlt | heq | hgt
        · exact absurd hp2 (by rw [h4 p hp1 hlt]; simp)
        · exact Or.inl heq
        · exact Or.inr ⟨by omega, hp2⟩

theorem findOccurrencesAux_ge {needle hay : Str} :
    ∀ (fuel start : Nat), ∀ p ∈ findOccurrencesAux needle hay start fuel, start ≤ p := by
  intro fuel
  induction fuel with
  | zero => intro start p hp; simp [findOccurrencesAux] at hp
  | succ fuel ih =>
    intro start p hp
    simp only [findOccurrencesAux] at hp
    cases h : strFind hay needle start with
    | none => rw [h] at hp; simp at hp
    | some pos =>
      rw [h] at hp
      obtain ⟨h1, -, -, -⟩ := strFind_some h
      rcases List.mem_cons.mp hp with rfl | hp'
      · exact h1
      · have := ih (pos + 1) p hp'
        omega

theorem findOccurrencesAux_sorted {needle hay : Str} :
    ∀ (fuel start : Nat), (findOccurrencesAux needle hay start fuel).Pairwise (· < ·) := by
  intro fuel
  induction fuel with
  | zero => intro start; simp [findOccurrencesAux]
  | succ fuel ih =>
    intro start
    simp only [findOccurrencesAux]
    cases h : strFind hay needle start with
    | none => simp
    | some pos =>
      refine List.Pairwise.cons ?_ (ih (pos + 1))
      intro p hp
      have := findOccurrencesAux_ge fuel (pos + 1) p hp
      omega

theorem lowerStr_ne_nil {model : Str} (hm : model ≠ []) : lowerStr model ≠ [] := by
  cases model with
  | nil => exact absurd rfl hm
  | cons a s => simp [lowerStr]

theorem findOccurrences_mem {needle hay : Str} (hne : needle ≠ []) (p : Nat) :
    p ∈ findOccurrences needle hay ↔ prefixB needle (hay.drop p) = true := by
  unfold findOccurrences
  rw [findOccurrencesAux_mem hne (hay.length + 1) 0 (by omega) p]
  simp

theorem exactMatches_eq_nil_iff {model text : Str} (hm : model ≠ []) :
    exactMatches model text = [] ↔
      ∀ p, prefixB (lowerStr model) ((lowerStr text).drop p) = false := by
  have hne := lowerStr_ne_nil hm
  constructor
  · intro h p
    cases hb : prefixB (lowerStr model) ((lowerStr text).drop p) with
    | false => rfl
    | true =>
      exfalso
      have hmem : p ∈ findOccurrences (lowerStr model) (lowerStr text) :=
        (findOccurrences_mem hne p).mpr hb
      have hcon : exactMatches model text ≠ [] := by
        unfold exactMatches
        intro hcon
        rw [List.map_eq_nil_iff] at hcon
        rw [hcon] at hmem
        simp at hmem
      exact hcon h
  · intro h
    unfold exactMatches
    rw [List.map_eq_nil_iff]
    cases hocc : findOccurrences (lowerStr model) (lowerStr text) with
    | nil => rfl
    | cons p rest =>
      exfalso
      have hp : p ∈ findOccurrences (lowerStr model) (lowerStr text) := by
        rw [hocc]; simp
      rw [findOccurrences_mem hne p, h p] at hp
      simp at hp

/-! ### Claim C3 — the exact tier of `find_all_match_positions` -/

theorem find_all_eq_exact {model text : Str} {th : Nat} (hm : model ≠ []) (ht : text ≠ [])
    (hocc : ∃ p, prefixB (lowerStr model) ((lowerStr text).drop p) = true) :
    find_all_match_positions model text th = exactMatches model text := by
  unfold find_all_match_positions
  rw [if_neg (by simp [hm, ht])]
  have hex : exactMatches model text ≠ [] := by
    intro hcon
    obtain ⟨p, hp⟩ := hocc
    rw [(exactMatches_eq_nil_iff hm).mp hcon p] at hp
    simp at hp
  rw [if_pos hex]

/-- C3 (counterexample to the claim as stated): for the term `"aa"` and the
text `"aaa"`, the exact tier returns spans `[0,2)` and `[1,3)` — these are all
*overlapping* occurrences (the scanner resumes one character after each hit,
not after the matched term), so the returned spans are not "exactly the
non-overlapping occurrences" and two returned spans do overlap. -/
theorem C3_counterexample_overlapping_spans :
    ((find_all_match_positions ("aa".toList) ("aaa".toList) 90).map
        (fun sp => (sp.start, sp.«end»))) = [(0, 2), (1, 3)] ∧
      ¬ (find_all_match_positions ("aa".toList) ("aaa".toList) 90).Pairwise
          (fun a b => a.«end» ≤ b.start ∨ b.«end» ≤ a.start) := by
  constructor
  · decide
  · decide

/-- C3 (amended): for non-empty term and text, when the term occurs verbatim
case-insensitively, `find_all_match_positions` returns a span for *every*
occurrence position (possibly overlapping ones), all of tier `exact`, with the
correct extent, in strictly increasing start order, and does not fall through
to the normalized or fuzzy tiers. -/
theorem C3_exact_tier_all_occurrences (model text : Str) (th : Nat)
    (hm : model ≠ []) (ht : text ≠ [])
    (hocc : ∃ p, prefixB (lowerStr model) ((lowerStr text).drop p) = true) :
    (∀ sp ∈ find_all_match_positions model text th,
        sp.type = SpanType.exact ∧
        prefixB (lowerStr model) ((lowerStr text).drop sp.start) = true ∧
        sp.«end» = sp.start + model.length ∧
        sp.matched_text = pySlice text sp.start sp.«end») ∧
    (∀ p, prefixB (lowerStr model) ((lowerStr text).drop p) = true →
        ∃ sp ∈ find_all_match_positions model text th, sp.start = p) ∧
    (find_all_match_positions model text th).Pairwise (fun a b => a.start < b.start) := by
  have hne := lowerStr_ne_nil hm
  rw [find_all_eq_exact hm ht hocc]
  refine ⟨?_, ?_, ?_⟩
  · intro sp hsp
    unfold exactMatches at hsp
    rw [List.mem_map] at hsp
    obtain ⟨pos, hpos, rfl⟩ := hsp
    rw [findOccurrences_mem hne pos] at hpos
    exact ⟨rfl, hpos, rfl, rfl⟩
  · intro p hp
    refine ⟨⟨p, p + model.length, pySlice text p (p + model.length), SpanType.exact⟩, ?_, rfl⟩
    unfold exactMatches
    rw [List.mem_map]
    exact ⟨p, (findOccurrences_mem hne p).mpr hp, rfl⟩
  · unfold exactMatches
    rw [List.pairwise_map]
    exact findOccurrencesAux_sorted _ _

/-- Witness for C3 (amended) on the spec's own example: the span at offset 9
of `"Lamy Safari"` in the text is an exact-tier span at a verbatim occurrence
with the correct extent. -/
theorem C3_exact_tier_all_occurrences_witness :
    (⟨9, 20, ("Lamy Safari".toList), SpanType.exact⟩ : Span).type = SpanType.exact ∧
    prefixB (lowerStr ("Lamy Safari".toList))
      ((lowerStr ("I have a Lamy Safari and a Lamy Safari for sale".toList)).drop
        (⟨9, 20, ("Lamy Safari".toList), SpanType.exact⟩ : Span).start) = true ∧
    (⟨9, 20, ("Lamy Safari".toList), SpanType.exact⟩ : Span).«end»
      = (⟨9, 20, ("Lamy Safari".toList), SpanType.exact⟩ : Span).start
        + ("Lamy Safari".toList).length ∧
    (⟨9, 20, ("Lamy Safari".toList), SpanType.exact⟩ : Span).matched_text
      = pySlice ("I have a Lamy Safari and a Lamy Safari for sale".toList)
          (⟨9, 20, ("Lamy Safari".toList), SpanType.exact⟩ : Span).start
          (⟨9, 20, ("Lamy Safari".toList), SpanType.exact⟩ : Span).«end» :=
  (C3_exact_tier_all_occurrences ("Lamy Safari".toList)
      ("I have a Lamy Safari and a Lamy Safari for sale".toList) 90
      (by decide) (by decide) ⟨9, by decide⟩).1
    ⟨9, 20, ("Lamy Safari".toList), SpanType.exact⟩ (by decide)

/-! ### Claim C10 — span self-consistency of `find_all_match_positions` -/

theorem foldl_preserve {α β : Type} (P : β → Prop) (f : List β → α → List β)
    (hstep : ∀ acc a, (∀ x ∈ acc, P x) → ∀ x ∈ f acc a, P x) :
    ∀ (l : List α) (acc : List β), (∀ x ∈ acc, P x) → ∀ x ∈ l.foldl f acc, P x := by
  intro l
  induction l with
  | nil => intro acc h x hx; exact h x hx
  | cons a rest ih =>
    intro acc h x hx
    exact ih (f acc a) (hstep acc a h) x hx

theorem normalizedMatches_good {model text : Str} :
    ∀ sp ∈ normalizedMatches model text, SpanGood model text sp := by
  unfold normalizedMatches
  apply foldl_preserve (SpanGood model text)
  · intro acc i h x hx
    dsimp only at hx
    split at hx
    · rename_i hnorm
      split at hx
      · rename_i ws hfind
        split at hx
        · exact h x hx
        · rw [List.mem_append] at hx
          rcases hx with hx | hx
          · exact h x hx
          · rw [List.mem_singleton] at hx
            subst hx
            obtain ⟨-, -, hpre, -⟩ := strFind_some hfind
            exact ⟨(pySlice_of_prefixB hpre).symm, by intro hc; exact absurd hc (by simp)⟩
      · exact h x hx
    · exact h x hx
  · intro x hx
    simp at hx

theorem fuzzyWordLoop_good {model text nm : Str} {th : Nat} :
    ∀ (ws : List Str) (cp : Nat), ∀ sp ∈ fuzzyWordLoop nm text th ws cp,
      SpanGood model text sp := by
  intro ws
  induction ws with
  | nil => intro cp sp hsp; simp [fuzzyWordLoop] at hsp
  | cons w rest ih =>
    intro cp sp hsp
    unfold fuzzyWordLoop at hsp
    split at hsp
    · split at hsp
      · rename_i p hfind
        rcases List.mem_cons.mp hsp with rfl | hsp'
        · obtain ⟨-, -, hpre, -⟩ := strFind_some hfind
          exact ⟨(pySlice_of_prefixB hpre).symm, by intro hc; exact absurd hc (by simp)⟩
        · exact ih _ sp hsp'
      · exact ih _ sp hsp
    · exact ih _ sp hsp

theorem fuzzyWindowInner_good {model text nm : Str} {th wsz : Nat} {acc : List Span}
    (hacc : ∀ sp ∈ acc, SpanGood model text sp) :
    ∀ sp ∈ fuzzyWindowInner nm text th wsz acc, SpanGood model text sp := by
  unfold fuzzyWindowInner
  apply foldl_preserve (SpanGood model text)
  · intro acc' i h x hx
    dsimp only at hx
    split at hx
    · split at hx
      · exact h x hx
      · rw [List.mem_append] at hx
        rcases hx with hx | hx
        · exact h x hx
        · rw [List.mem_singleton] at hx
          subst hx
          refine ⟨?_, by intro hc; exact absurd hc (by simp)⟩
          show pySlice text i (i + wsz) = pySlice text i (i + wsz)
          rfl
    · exact h x hx
  · exact hacc

theorem fuzzyMultiwordMatches_good {model text nm nt : Str} {th : Nat} :
    ∀ sp ∈ fuzzyMultiwordMatches model text th nm nt, SpanGood model text sp := by
  unfold fuzzyMultiwordMatches
  split
  · apply foldl_preserve (SpanGood model text)
    · intro acc a h x hx
      split at hx
      · exact h x hx
      · exact fuzzyWindowInner_good h x hx
    · intro x hx; simp at hx
  · intro sp hsp; simp at hsp

/-- C10: every span returned by `find_all_match_positions` (for non-empty term
and text) is self-consistent: its `matched_text` equals the text slice
`text[start:end]`, and exact-tier spans have length exactly `len(model)`. -/
theorem C10_spans_self_consistent (model text : Str) (th : Nat)
    (hm : model ≠ []) (ht : text ≠ []) :
    ∀ sp ∈ find_all_match_positions model text th,
      sp.matched_text = pySlice text sp.start sp.«end» ∧
      (sp.type = SpanType.exact → sp.«end» - sp.start = model.length) := by
  intro sp hsp
  unfold find_all_match_positions at hsp
  rw [if_neg (by simp [hm, ht])] at hsp
  dsimp only at hsp
  split at hsp
  · -- exact tier
    unfold exactMatches at hsp
    rw [List.mem_map] at hsp
    obtain ⟨pos, -, rfl⟩ := hsp
    exact ⟨rfl, by intro h; show pos + model.length - pos = model.length; omega⟩
  · split at hsp
    · exact normalizedMatches_good sp hsp
    · split at hsp
      · exact fuzzyWordLoop_good _ _ sp hsp
      · exact fuzzyMultiwordMatches_good sp hsp

/-- Witness for C10 at the spec's exact-match example, on the concrete span at
offset 9. -/
theorem C10_spans_self_consistent_witness :
    (⟨9, 20, ("Lamy Safari".toList), SpanType.exact⟩ : Span).matched_text
      = pySlice ("I have a Lamy Safari and a Lamy Safari for sale".toList)
          (⟨9, 20, ("Lamy Safari".toList), SpanType.exact⟩ : Span).start
          (⟨9, 20, ("Lamy Safari".toList), SpanType.exact⟩ : Span).«end» ∧
    ((⟨9, 20, ("Lamy Safari".toList), SpanType.exact⟩ : Span).type = SpanType.exact →
      (⟨9, 20, ("Lamy Safari".toList), SpanType.exact⟩ : Span).«end»
          - (⟨9, 20, ("Lamy Safari".toList), SpanType.exact⟩ : Span).start
        = ("Lamy Safari".toList).length) :=
  C10_spans_self_consistent ("Lamy Safari".toList)
    ("I have a Lamy Safari and a Lamy Safari for sale".toList) 90
    (by decide) (by decide)
    ⟨9, 20, ("Lamy Safari".toList), SpanType.exact⟩ (by decide)

/-! ### Claim C8 — the normalized tier of `find_all_match_positions` -/

theorem foldl_inv {α β : Type} (P : β → Prop) (f : β → α → β)
    (h : ∀ acc a, P acc → P (f acc a)) :
    ∀ (l : List α) (acc : β), P acc → P (l.foldl f acc) := by
  intro l
  induction l with
  | nil => intro acc hp; exact hp
  | cons a rest ih => intro acc hp; exact ih (f acc a) (h acc a hp)

theorem normalizedMatches_normgood {model text : Str} :
    ∀ sp ∈ normalizedMatches model text, NormSpanGood model text sp := by
  unfold normalizedMatches
  apply foldl_preserve (NormSpanGood model text)
  · intro acc i h x hx
    dsimp only at hx
    split at hx
    · rename_i hnorm
      split at hx
      · rename_i ws hfind
        split at hx
        · exact h x hx
        · rw [List.mem_append] at hx
          rcases hx with hx | hx
          · exact h x hx
          · rw [List.mem_singleton] at hx
            subst hx
            exact fun _ => ⟨hfind, hnorm, rfl⟩
      · exact h x hx
    · exact h x hx
  · intro x hx
    simp at hx

theorem normalizedMatches_pairwise {model text : Str} :
    (normalizedMatches model text).Pairwise
      (fun a b => 5 ≤ ((a.start : Int) - (b.start : Int)).natAbs) := by
  unfold normalizedMatches
  apply foldl_inv (fun acc : List Span =>
    acc.Pairwise (fun a b => 5 ≤ ((a.start : Int) - (b.start : Int)).natAbs))
  · intro acc i hp
    dsimp only
    split
    · split
      · rename_i ws hfind
        split
        · exact hp
        · rename_i hany
          rw [List.pairwise_append]
          refine ⟨hp, by simp, ?_⟩
          intro a ha b hb
          rw [List.mem_singleton] at hb
          subst hb
          simp only [List.any_eq_true, not_exists, not_and] at hany
          have := hany a ha
          simp only [decide_eq_true_eq] at this
          show (5 : ℕ) ≤ ((a.start : Int) - (ws : Int)).natAbs
          omega
      · exact hp
    · exact hp
  · simp

theorem normalizedMatches_type {model text : Str} :
    ∀ sp ∈ normalizedMatches model text, sp.type = SpanType.normalized := by
  unfold normalizedMatches
  apply foldl_preserve (fun sp : Span => sp.type = SpanType.normalized)
  · intro acc i h x hx
    dsimp only at hx
    split at hx
    · split at hx
      · split at hx
        · exact h x hx
        · rw [List.mem_append] at hx
          rcases hx with hx | hx
          · exact h x hx
          · rw [List.mem_singleton] at hx
            subst hx
            rfl
      · exact h x hx
    · exact h x hx
  · intro x hx
    simp at hx

theorem fuzzyWordLoop_type {text nm : Str} {th : Nat} :
    ∀ (ws : List Str) (cp : Nat), ∀ sp ∈ fuzzyWordLoop nm text th ws cp,
      sp.type = SpanType.fuzzy := by
  intro ws
  induction ws with
  | nil => intro cp sp hsp; simp [fuzzyWordLoop] at hsp
  | cons w rest ih =>
    intro cp sp hsp
    unfold fuzzyWordLoop at hsp
    split at hsp
    · split at hsp
      · rcases List.mem_cons.mp hsp with rfl | hsp'
        · rfl
        · exact ih _ sp hsp'
      · exact ih _ sp hsp
    · exact ih _ sp hsp

theorem fuzzyWindowInner_type {text nm : Str} {th wsz : Nat} {acc : List Span}
    (hacc : ∀ sp ∈ acc, sp.type = SpanType.fuzzy) :
    ∀ sp ∈ fuzzyWindowInner nm text th wsz acc, sp.type = SpanType.fuzzy := by
  unfold fuzzyWindowInner
  apply foldl_preserve (fun sp : Span => sp.type = SpanType.fuzzy)
  · intro acc' i h x hx
    dsimp only at hx
    split at hx
    · split at hx
      · exact h x hx
      · rw [List.mem_append] at hx
        rcases hx with hx | hx
        · exact h x hx
        · rw [List.mem_singleton] at hx
          subst hx
          rfl
    · exact h x hx
  · exact hacc

theorem fuzzyMultiwordMatches_type {model text nm nt : Str} {th : Nat} :
    ∀ sp ∈ fuzzyMultiwordMatches model text th nm nt, sp.type = SpanType.fuzzy := by
  unfold fuzzyMultiwordMatches
  split
  · apply foldl_preserve (fun sp : Span => sp.type = SpanType.fuzzy)
    · intro acc a h x hx
      split at hx
      · exact h x hx
      · exact fuzzyWindowInner_type h x hx
    · intro x hx; simp at hx
  · intro sp hsp; simp at hsp

/-- C8 (counterexample to the claim as stated): with term `"a  b"` (double
space, so the exact tier fails) and text `"a b x a b"`, two distinct token
windows (at text offsets 0 and 6) have window text `"a b"` equal to the
normalized term, but the code records `text.find(window_text)` — the *first*
occurrence — for both, so the second window collapses into the first by the
5-character dedup and no span starts at offset 6. -/
theorem C8_counterexample_first_occurrence_offset :
    (find_all_match_positions ("a  b".toList) ("a b x a b".toList) 90)
      = [⟨0, 3, "a b".toList, SpanType.normalized⟩] ∧
    normalize_text (joinSpace (((splitWs ("a b x a b".toList)).drop 3).take 2))
      = normalize_text ("a  b".toList) ∧
    strFind ("a b x a b".toList)
      (joinSpace (((splitWs ("a b x a b".toList)).drop 3).take 2)) 6 = some 6 ∧
    ¬ ∃ sp ∈ find_all_match_positions ("a  b".toList) ("a b x a b".toList) 90,
        sp.start = 6 := by
  refine ⟨by decide, by decide, by decide, by decide⟩

/-- C8 (amended): in the normalized tier of `find_all_match_positions`, every
recorded span starts at the offset of the *first occurrence in the text of the
window's text* (so windows with identical window text collapse into a single
span at that first occurrence), the span's window text is normalized-equal to
the normalized term, its extent is the window text's length, and spans whose
starts lie within 5 characters of an already recorded span are deduplicated
(all retained normalized spans are pairwise at least 5 characters apart). -/
theorem C8_normalized_tier_first_occurrence (model text : Str) (th : Nat) :
    (∀ sp ∈ find_all_match_positions model text th,
      sp.type = SpanType.normalized →
        strFind text sp.matched_text 0 = some sp.start ∧
        normalize_text sp.matched_text = normalize_text model ∧
        sp.«end» = sp.start + sp.matched_text.length) ∧
    ((find_all_match_positions model text th).filter
        (fun sp => decide (sp.type = SpanType.normalized))).Pairwise
      (fun a b => 5 ≤ ((a.start : Int) - (b.start : Int)).natAbs) := by
  unfold find_all_match_positions
  split
  · simp
  · dsimp only
    split
    · -- exact tier: no normalized spans
      constructor
      · intro sp hsp htype
        exfalso
        unfold exactMatches at hsp
        rw [List.mem_map] at hsp
        obtain ⟨pos, -, rfl⟩ := hsp
        exact absurd htype (by simp)
      · rw [List.filter_eq_nil_iff.mpr]
        · simp
        · intro sp hsp
          unfold exactMatches at hsp
          rw [List.mem_map] at hsp
          obtain ⟨pos, -, rfl⟩ := hsp
          simp
    · split
      · -- normalized tier
        constructor
        · intro sp hsp htype
          exact normalizedMatches_normgood sp hsp htype
        · rw [List.filter_eq_self.mpr]
          · exact normalizedMatches_pairwise
          · intro sp hsp
            simp [normalizedMatches_type sp hsp]
      · split
        · -- fuzzy single-word tier: no normalized spans
          constructor
          · intro sp hsp htype
            exact absurd (fuzzyWordLoop_type _ _ sp hsp ▸ htype) (by simp)
          · rw [List.filter_eq_nil_iff.mpr]
            · simp
            · intro sp hsp
              simp [fuzzyWordLoop_type _ _ sp hsp]
        · -- fuzzy multi-word tier: no normalized spans
          constructor
          · intro sp hsp htype
            exact absurd (fuzzyMultiwordMatches_type sp hsp ▸ htype) (by simp)
          · rw [List.filter_eq_nil_iff.mpr]
            · simp
            · intro sp hsp
              simp [fuzzyMultiwordMatches_type sp hsp]

/-- Witness for C8 (amended) on a concrete normalized-tier match. -/
theorem C8_normalized_tier_first_occurrence_witness :
    strFind ("a b x a b".toList)
        (Span.matched_text ⟨0, 3, "a b".toList, SpanType.normalized⟩) 0
      = some (Span.start ⟨0, 3, "a b".toList, SpanType.normalized⟩) :=
  ((C8_normalized_tier_first_occurrence ("a  b".toList) ("a b x a b".toList) 90).1
    ⟨0, 3, "a b".toList, SpanType.normalized⟩ (by decide) (by decide)).1

/-! ### Claim C2 — the tier-4 alias loop of `find_matching_pen_names` -/

theorem tier4Loop_ge_96 {q : Str} {cs : List Str}
    (h : ∃ c ∈ cs, normalize_text c = q) :
    ∃ sc mt, tier4Loop q cs = some (sc, mt) ∧ (96 : ℚ) ≤ sc := by
  induction cs with
  | nil => obtain ⟨c, hc, -⟩ := h; simp at hc
  | cons c rest ih =>
    unfold tier4Loop
    by_cases h1 : normalize_text c = q
    · rw [if_pos h1]
      exact ⟨97, MatchType.normalized_alias, rfl, by norm_num⟩
    · rw [if_neg h1]
      by_cases h2 : splitWs (normalize_text c) ≠ [] ∧ q ∈ splitWs (normalize_text c)
      · rw [if_pos h2]
        exact ⟨96, MatchType.exact_word_match, rfl, by norm_num⟩
      · rw [if_neg h2]
        apply ih
        obtain ⟨c', hc', heq⟩ := h
        rcases List.mem_cons.mp hc' with rfl | hmem
        · exact absurd heq h1
        · exact ⟨c', hmem, heq⟩

theorem tier5Score_of_ge_96 {q formal_name : Str} {s : ℚ × MatchType} (h : (96 : ℚ) ≤ s.1) :
    tier5Score q formal_name s = s := by
  unfold tier5Score
  rw [if_neg (by push_neg; linarith)]

theorem tier6Score_of_ge_95 {inputLen : Nat} {q formal_name : Str} {casuals : List Str}
    {s : ℚ × MatchType} (h : (95 : ℚ) ≤ s.1) :
    tier6Score inputLen q formal_name casuals s = s := by
  unfold tier6Score
  rw [if_neg (by push_neg; linarith)]

/-- C2 (counterexample to the claim as stated): index the two aliases
`"my xy"` and `"xy"` for formal name `"Pen"`, in that order, and query
`"x-y"` (whose normalized form is `"xy"`).  The alias `"xy"` is
normalized-equal to the normalized query, so the claim promises a score of at
least 97 — but the combined tier-4 loop hits the `exact_word_match` condition
on the earlier alias `"my xy"` first and `break`s with score 96, so the
candidate scores below 97 and `findMatches` at threshold 97 returns nothing. -/
theorem C2_counterexample_alias_order_dependence :
    (("xy".toList) ∈ BidirectionalMap.get_values
        ((BidirectionalMap.empty.add ("Pen".toList) ("my xy".toList)).add
          ("Pen".toList) ("xy".toList)) ("Pen".toList) ∧
      normalize_text ("xy".toList) = normalize_text ("x-y".toList)) ∧
    (candidateScore
        ((BidirectionalMap.empty.add ("Pen".toList) ("my xy".toList)).add
          ("Pen".toList) ("xy".toList)) ("x-y".toList) ("Pen".toList)).1 < 97 ∧
    find_matching_pen_names
        ((BidirectionalMap.empty.add ("Pen".toList) ("my xy".toList)).add
          ("Pen".toList) ("xy".toList)) ("x-y".toList) 4 97 = [] := by
  refine ⟨⟨by decide, by decide⟩, ?_, by decide⟩
  have : (candidateScore
      ((BidirectionalMap.empty.add ("Pen".toList) ("my xy".toList)).add
        ("Pen".toList) ("xy".toList)) ("x-y".toList) ("Pen".toList))
      = (96, MatchType.exact_word_match) := by decide
  rw [this]
  norm_num

/-- C2 (amended): the lower tiers are attempted only when no higher tier
matched, but within PRIORITY 4 the normalized-alias check (97) and the
exact-word-match check (96) share one first-match loop over the alias set, so
when some alias of the candidate equals the normalized query the candidate's
score is at least 96 — not necessarily 97, because an alias satisfying only
the word-match condition that is examined earlier wins the loop with 96. -/
theorem C2_alias_normalized_scores_at_least_96 (pm : BidirectionalMap)
    (user_input formal_name : Str)
    (h : ∃ c ∈ pm.get_values formal_name,
        normalize_text c = normalize_text user_input) :
    (96 : ℚ) ≤ (candidateScore pm user_input formal_name).1 := by
  unfold candidateScore
  dsimp only
  set q := normalize_text user_input with hq
  set ql := strip (lowerStr user_input) with hql
  set casuals := pm.get_values formal_name with hcasuals
  set s3 := tier3Score q formal_name
    (tier2Score ql casuals (tier1Score ql formal_name)) with hs3
  by_cases h98 : s3.1 < 98
  · obtain ⟨sc, mt, h4, hsc⟩ := tier4Loop_ge_96 h
    have hs4 : tier4Score q casuals s3 = (sc, mt) := by
      unfold tier4Score
      rw [if_pos h98, h4]
      rfl
    rw [hs4, tier5Score_of_ge_96 hsc, tier6Score_of_ge_95 (by linarith)]
    exact hsc
  · have hs4 : tier4Score q casuals s3 = s3 := by
      unfold tier4Score
      rw [if_neg h98]
    push_neg at h98
    rw [hs4, tier5Score_of_ge_96 (by linarith), tier6Score_of_ge_95 (by linarith)]
    linarith

/-- Witness for C2 (amended) at the counterexample's own index and query. -/
theorem C2_alias_normalized_scores_at_least_96_witness :
    (96 : ℚ) ≤ (candidateScore
        ((BidirectionalMap.empty.add ("Pen".toList) ("my xy".toList)).add
          ("Pen".toList) ("xy".toList)) ("x-y".toList) ("Pen".toList)).1 :=
  C2_alias_normalized_scores_at_least_96 _ _ _ ⟨("xy".toList), by decide, by decide⟩

/-! ### Association-list lemmas -/

theorem alookup_eq_none {β : Type} {l : List (Str × β)} {k : Str} :
    alookup l k = none ↔ ∀ p ∈ l, p.1 ≠ k := by
  induction l with
  | nil => simp [alookup]
  | cons p rest ih =>
    obtain ⟨k', v⟩ := p
    simp only [alookup, List.mem_cons]
    by_cases he : k' = k
    · rw [if_pos he]
      constructor
      · intro hcon
        exact absurd hcon (by simp)
      · intro h
        exact absurd he (h (k', v) (Or.inl rfl))
    · rw [if_neg he]
      rw [ih]
      constructor
      · rintro h p (rfl | hp)
        · exact he
        · exact h p hp
      · intro h p hp
        exact h p (Or.inr hp)

theorem alookup_some_mem_keys {β : Type} {l : List (Str × β)} {k : Str} {v : β}
    (h : alookup l k = some v) : k ∈ l.map (fun p => p.1) := by
  induction l with
  | nil => simp [alookup] at h
  | cons p rest ih =>
    obtain ⟨k', v'⟩ := p
    simp only [alookup] at h
    rw [List.map_cons]
    by_cases he : k' = k
    · rw [he]
      exact List.mem_cons_self _ _
    · rw [if_neg he] at h
      exact List.mem_cons_of_mem _ (ih h)

theorem alookup_append_left {β : Type} {l l' : List (Str × β)} {k : Str} {v : β}
    (h : alookup l k = some v) : alookup (l ++ l') k = some v := by
  induction l with
  | nil => simp [alookup] at h
  | cons p rest ih =>
    obtain ⟨k', v'⟩ := p
    simp only [alookup] at h
    by_cases he : k' = k
    · rw [if_pos he] at h
      simp only [List.cons_append, alookup, if_pos he]
      exact h
    · rw [if_neg he] at h
      simp only [List.cons_append, alookup, if_neg he]
      exact ih h

theorem alookup_map_update {β : Type} (k : Str) (v : β) :
    ∀ l : List (Str × β), (alookup l k).isSome →
      alookup (l.map (fun p => if p.1 = k then (k, v) else p)) k = some v := by
  intro l
  induction l with
  | nil => intro h; simp [alookup] at h
  | cons p rest ih =>
    intro h
    obtain ⟨k₀, v₀⟩ := p
    by_cases he : k₀ = k
    · subst he
      simp only [List.map_cons, if_true]
      simp [alookup]
    · simp only [List.map_cons]
      rw [if_neg he]
      simp only [alookup, if_neg he] at h ⊢
      exact ih h

theorem alookup_map_update_ne {β : Type} (k k' : Str) (v : β) (hne : k' ≠ k) :
    ∀ l : List (Str × β),
      alookup (l.map (fun p => if p.1 = k then (k, v) else p)) k' = alookup l k' := by
  intro l
  induction l with
  | nil => simp
  | cons p rest ih =>
    obtain ⟨k₀, v₀⟩ := p
    by_cases he : k₀ = k
    · subst he
      simp only [List.map_cons, if_true]
      simp only [alookup]
      rw [if_neg (fun hc => hne hc.symm), if_neg (fun hc => hne hc.symm)]
      exact ih
    · simp only [List.map_cons]
      rw [if_neg he]
      simp only [alookup]
      by_cases h0 : k₀ = k'
      · rw [if_pos h0, if_pos h0]
      · rw [if_neg h0, if_neg h0]
        exact ih

theorem alookup_append_single_ne {β : Type} (k k' : Str) (v : β) (hne : k' ≠ k) :
    ∀ l : List (Str × β), alookup (l ++ [(k, v)]) k' = alookup l k' := by
  intro l
  induction l with
  | nil =>
    simp only [List.nil_append, alookup]
    rw [if_neg (fun hc => hne hc.symm)]
  | cons p rest ih =>
    obtain ⟨k₀, v₀⟩ := p
    simp only [List.cons_append, alookup]
    by_cases h0 : k₀ = k'
    · rw [if_pos h0, if_pos h0]
    · rw [if_neg h0, if_neg h0]
      exact ih

theorem alookup_aupdate_self {β : Type} (l : List (Str × β)) (k : Str) (v : β) :
    alookup (aupdate l k v) k = some v := by
  unfold aupdate
  split
  · rename_i hs
    exact alookup_map_update k v l hs
  · rename_i hs
    have hnone : alookup l k = none := by
      cases halo : alookup l k with
      | none => rfl
      | some w => rw [halo] at hs; simp at hs
    induction l with
    | nil => simp [alookup]
    | cons p rest ih =>
      obtain ⟨k₀, v₀⟩ := p
      simp only [alookup] at hnone
      by_cases he : k₀ = k
      · rw [if_pos he] at hnone
        exact absurd hnone (by simp)
      · rw [if_neg he] at hnone
        simp only [List.cons_append, alookup, if_neg he]
        exact ih (by rw [hnone]; simp) hnone

theorem alookup_aupdate_ne {β : Type} (l : List (Str × β)) (k k' : Str) (v : β)
    (hne : k' ≠ k) : alookup (aupdate l k v) k' = alookup l k' := by
  unfold aupdate
  split
  · exact alookup_map_update_ne k k' v hne l
  · exact alookup_append_single_ne k k' v hne l

/-! ### Claim C5 — last-write-wins remap in `add` -/

theorem add_many_to_one (m : BidirectionalMap) (key value : Str) :
    (m.add key value).many_to_one
      = aupdate m.many_to_one (lowerStr (strip value)) (strip key) := by
  unfold BidirectionalMap.add
  dsimp only
  congr 1
  split
  · split
    · split
      · split
        · split
          · rfl
          · rfl
        · rfl
      · rfl
    · rfl
  · rfl

theorem phase3Val_mto_pres {x : Str} {y : Str} (key : Str) :
    ∀ (vs : List Str) (st : List (Str × List Str) × List (Str × Str)),
      alookup st.2 x = some y → alookup (validatePhase3Val key vs st).2 x = some y := by
  intro vs
  induction vs with
  | nil => intro st h; exact h
  | cons value rest ih =>
    intro st h
    obtain ⟨otm, mto⟩ := st
    unfold validatePhase3Val
    dsimp only
    split
    · exact ih _ (alookup_append_left h)
    · split
      · split
        · exact ih _ h
        · exact ih _ h
      · exact ih _ h

theorem phase3Val_otm_other {G key : Str} (hne : key ≠ G) :
    ∀ (vs : List Str) (st : List (Str × List Str) × List (Str × Str)),
      alookup (validatePhase3Val key vs st).1 G = alookup st.1 G := by
  intro vs
  induction vs with
  | nil => intro st; rfl
  | cons value rest ih =>
    intro st
    obtain ⟨otm, mto⟩ := st
    unfold validatePhase3Val
    dsimp only
    split
    · rw [ih]
    · split
      · split
        · rw [ih]
          exact alookup_aupdate_ne _ _ _ _ (fun hc => hne hc.symm)
        · rw [ih]
      · rw [ih]

theorem phase3Val_removes {G a' k' : Str} (hk : k' ≠ G) :
    ∀ (vs : List Str) (st : List (Str × List Str) × List (Str × Str)),
      alookup st.2 a' = some k' →
      (a' ∉ (alookup st.1 G).getD [] ∨ a' ∈ vs) →
      a' ∉ (alookup (validatePhase3Val G vs st).1 G).getD [] ∧
        alookup (validatePhase3Val G vs st).2 a' = some k' := by
  intro vs
  induction vs with
  | nil =>
    intro st hmto hcase
    rcases hcase with hout | hin
    · exact ⟨hout, hmto⟩
    · simp at hin
  | cons value rest ih =>
    intro st hmto hcase
    obtain ⟨otm, mto⟩ := st
    unfold validatePhase3Val
    dsimp only
    split
    · -- reverse entry for `value` missing: synthesize (value, G); then value ≠ a'
      rename_i hnone
      have hva : value ≠ a' := by
        intro hc
        subst hc
        rw [hmto] at hnone
        exact absurd hnone (by simp)
      apply ih
      · exact alookup_append_left hmto
      · rcases hcase with hout | hin
        · exact Or.inl hout
        · rcases List.mem_cons.mp hin with hv | hin'
          · exact absurd hv.symm hva
          · exact Or.inr hin'
    · rename_i k hksome
      split
      · -- the reverse owner of `value` differs from G: remove `value` from G's set
        split
        · rename_i vsG hvsG
          apply ih
          · exact hmto
          · by_cases hva : value = a'
            · subst hva
              left
              rw [alookup_aupdate_self]
              simp
            · rcases hcase with hout | hin
              · left
                rw [alookup_aupdate_self]
                rw [hvsG] at hout
                simp only [Option.getD_some] at hout ⊢
                rw [List.mem_filter]
                rintro ⟨hc, -⟩
                exact hout hc
              · rcases List.mem_cons.mp hin with hv | hin'
                · exact absurd hv.symm hva
                · exact Or.inr hin'
        · rename_i hvsG
          apply ih
          · exact hmto
          · left
            rw [hvsG]
            simp
      · -- the reverse owner of `value` is G itself; then value ≠ a'
        rename_i hkG
        push_neg at hkG
        have hva : value ≠ a' := by
          intro hc
          subst hc
          rw [hmto] at hksome
          injection hksome with hkk
          exact hk (hkk.trans hkG)
        apply ih
        · exact hmto
        · rcases hcase with hout | hin
          · exact Or.inl hout
          · rcases List.mem_cons.mp hin with hv | hin'
            · exact absurd hv.symm hva
            · exact Or.inr hin'

theorem phase3_removes {G a' k' : Str} (hk : k' ≠ G) :
    ∀ (ks : List Str) (st : List (Str × List Str) × List (Str × Str)),
      alookup st.2 a' = some k' →
      (a' ∉ (alookup st.1 G).getD [] ∨ G ∈ ks) →
      a' ∉ (alookup (validatePhase3 ks st).1 G).getD [] := by
  intro ks
  induction ks with
  | nil =>
    intro st hmto hcase
    rcases hcase with hout | hin
    · exact hout
    · simp at hin
  | cons key rest ih =>
    intro st hmto hcase
    unfold validatePhase3
    by_cases hkey : key = G
    · subst hkey
      obtain ⟨hout, hmto'⟩ := phase3Val_removes hk ((alookup st.1 key).getD []) st hmto
        (by
          by_cases hmem : a' ∈ (alookup st.1 key).getD []
          · exact Or.inr hmem
          · exact Or.inl hmem)
      exact ih _ hmto' (Or.inl hout)
    · apply ih
      · exact phase3Val_mto_pres key _ st hmto
      · rcases hcase with hout | hin
        · left
          rw [phase3Val_otm_other hkey]
          exact hout
        · rcases List.mem_cons.mp hin with hv | hin'
          · exact absurd hv.symm hkey
          · exact Or.inr hin'

theorem phase3_mto_pres {x y : Str} :
    ∀ (ks : List Str) (st : List (Str × List Str) × List (Str × Str)),
      alookup st.2 x = some y → alookup (validatePhase3 ks st).2 x = some y := by
  intro ks
  induction ks with
  | nil => intro st h; exact h
  | cons key rest ih =>
    intro st h
    unfold validatePhase3
    exact ih _ (phase3Val_mto_pres key _ st h)

theorem validate_components (m : BidirectionalMap) :
    m.validate.one_to_many
        = (validatePhase3
            (((validatePhase1 m.many_to_one m.one_to_many).filter
              (fun p => p.2 ≠ [])).map (fun p => p.1))
            ((validatePhase1 m.many_to_one m.one_to_many).filter (fun p => p.2 ≠ []),
              m.many_to_one)).1 ∧
      m.validate.many_to_one
        = (validatePhase3
            (((validatePhase1 m.many_to_one m.one_to_many).filter
              (fun p => p.2 ≠ [])).map (fun p => p.1))
            ((validatePhase1 m.many_to_one m.one_to_many).filter (fun p => p.2 ≠ []),
              m.many_to_one)).2 := by
  constructor <;> rfl

/-- C5 (counterexample to the claim as stated): `add` normalizes the alias
(strip + lowercase) before storing it, but `get_key` does not normalize its
argument, so after `add("Pen", "VP")` the call `get_key("VP")` returns `none`,
not `"Pen"` — the claim fails for any alias that is not already trimmed
lowercase. -/
theorem C5_counterexample_unnormalized_alias :
    BidirectionalMap.get_key (BidirectionalMap.empty.add ("Pen".toList) ("VP".toList))
      ("VP".toList) = none := by decide

/-- C5 (amended): for every index state, formal name `F` and alias `a`, after
`add(F, a)` the *normalized* alias `a' = lower(trim(a))` maps to the
*normalized* formal name `trim(F)`: `get_key(a')` returns `trim(F)` (so
`get_key(a) == F` exactly when `a` is already trimmed lowercase and `F` is
trimmed), even when `a'` was previously mapped to a different formal name
(last-write-wins remap); and after the remap `get_values(G)` of every other
formal name `G ≠ trim(F)` — in particular the previous owner — no longer
contains `a'`. -/
theorem C5_add_last_write_wins (m : BidirectionalMap) (F a G : Str)
    (hG : G ≠ strip F) :
    BidirectionalMap.get_key (m.add F a) (lowerStr (strip a)) = some (strip F) ∧
      lowerStr (strip a) ∉ BidirectionalMap.get_values (m.add F a) G := by
  set a' := lowerStr (strip a) with ha'
  set k' := strip F with hk'
  have hmto : alookup (m.add F a).many_to_one a' = some k' := by
    rw [add_many_to_one]
    exact alookup_aupdate_self _ _ _
  set m₂ := m.add F a with hm₂
  set otm₂ := (validatePhase1 m₂.many_to_one m₂.one_to_many).filter (fun p => p.2 ≠ [])
    with hotm₂
  have hk'G : k' ≠ G := fun hc => hG hc.symm
  constructor
  · unfold BidirectionalMap.get_key
    rw [(validate_components m₂).2]
    exact phase3_mto_pres _ _ hmto
  · unfold BidirectionalMap.get_values
    rw [(validate_components m₂).1]
    apply phase3_removes hk'G _ _ hmto
    by_cases hmem : a' ∈ (alookup otm₂ G).getD []
    · right
      cases halo : alookup otm₂ G with
      | none => rw [halo] at hmem; simp at hmem
      | some vs => exact alookup_some_mem_keys halo
    · exact Or.inl hmem

/-- Witness for C5 (amended): remapping alias `"vp"` from `"Old Pen"` to
`"Pen"` makes `get_key "vp"` return `"Pen"`, and `"Old Pen"` no longer holds
`"vp"`. -/
theorem C5_add_last_write_wins_witness :
    BidirectionalMap.get_key
        ((BidirectionalMap.empty.add ("Old Pen".toList) ("vp".toList)).add
          ("Pen".toList) ("vp".toList)) (lowerStr (strip ("vp".toList)))
      = some (strip ("Pen".toList)) ∧
    lowerStr (strip ("vp".toList)) ∉ BidirectionalMap.get_values
        ((BidirectionalMap.empty.add ("Old Pen".toList) ("vp".toList)).add
          ("Pen".toList) ("vp".toList)) ("Old Pen".toList) :=
  C5_add_last_write_wins (BidirectionalMap.empty.add ("Old Pen".toList) ("vp".toList))
    ("Pen".toList) ("vp".toList) ("Old Pen".toList) (by decide)

/-! ### Claim C1 — bidirectional consistency under `add`/`validate` sequences -/

theorem alookup_mem {β : Type} {l : List (Str × β)} {k : Str} {v : β}
    (h : alookup l k = some v) : (k, v) ∈ l := by
  induction l with
  | nil => simp [alookup] at h
  | cons p rest ih =>
    obtain ⟨k₀, v₀⟩ := p
    simp only [alookup] at h
    by_cases he : k₀ = k
    · rw [if_pos he] at h
      injection h with h
      subst he
      subst h
      exact List.mem_cons_self _ _
    · rw [if_neg he] at h
      exact List.mem_cons_of_mem _ (ih h)

theorem alookup_append_right_none {β : Type} {l l' : List (Str × β)} {k : Str}
    (h : alookup l k = none) : alookup (l ++ l') k = alookup l' k := by
  induction l with
  | nil => simp
  | cons p rest ih =>
    obtain ⟨k₀, v₀⟩ := p
    simp only [alookup] at h
    by_cases he : k₀ = k
    · rw [if_pos he] at h
      exact absurd h (by simp)
    · rw [if_neg he] at h
      simp only [List.cons_append, alookup, if_neg he]
      exact ih h

theorem mem_aupdate {β : Type} {l : List (Str × β)} {k : Str} {v : β} {p : Str × β}
    (h : p ∈ aupdate l k v) : p = (k, v) ∨ (p ∈ l ∧ p.1 ≠ k) := by
  unfold aupdate at h
  split at h
  · rw [List.mem_map] at h
    obtain ⟨p₀, hp₀, hmap⟩ := h
    by_cases he : p₀.1 = k
    · rw [if_pos he] at hmap
      exact Or.inl hmap.symm
    · rw [if_neg he] at hmap
      subst hmap
      exact Or.inr ⟨hp₀, he⟩
  · rename_i hs
    have hnone : alookup l k = none := by
      cases halo : alookup l k with
      | none => rfl
      | some w => rw [halo] at hs; simp at hs
    rw [List.mem_append] at h
    rcases h with h | h
    · refine Or.inr ⟨h, ?_⟩
      exact alookup_eq_none.mp hnone p h
    · rw [List.mem_singleton] at h
      exact Or.inl h

theorem aupdate_keys_nodup {β : Type} {l : List (Str × β)} {k : Str} {v : β}
    (h : (l.map (fun p => p.1)).Nodup) :
    ((aupdate l k v).map (fun p => p.1)).Nodup := by
  unfold aupdate
  split
  · have : (l.map (fun p => if p.1 = k then (k, v) else p)).map (fun p => p.1)
        = l.map (fun p => p.1) := by
      rw [List.map_map]
      apply List.map_congr_left
      intro p hp
      by_cases he : p.1 = k
      · simp [he]
      · simp [he]
    rw [this]
    exact h
  · rename_i hs
    have hnone : alookup l k = none := by
      cases halo : alookup l k with
      | none => rfl
      | some w => rw [halo] at hs; simp at hs
    rw [List.map_append]
    simp only [List.map_cons, List.map_nil]
    rw [List.nodup_append]
    refine ⟨h, by simp, ?_⟩
    intro x hx
    simp only [List.mem_singleton]
    intro hc
    subst hc
    rw [List.mem_map] at hx
    obtain ⟨p, hp, hpk⟩ := hx
    exact alookup_eq_none.mp hnone p hp hpk

theorem mem_aerase {β : Type} {l : List (Str × β)} {k : Str} {p : Str × β}
    (h : p ∈ aerase l k) : p ∈ l ∧ p.1 ≠ k := by
  unfold aerase at h
  rw [List.mem_filter] at h
  exact ⟨h.1, by simpa using h.2⟩

theorem alookup_aerase_ne {β : Type} {l : List (Str × β)} {k k' : Str}
    (hne : k' ≠ k) : alookup (aerase l k) k' = alookup l k' := by
  induction l with
  | nil => rfl
  | cons p rest ih =>
    obtain ⟨k₀, v₀⟩ := p
    unfold aerase
    simp only [List.filter_cons]
    by_cases he : k₀ = k
    · rw [if_neg (by simp [he])]
      simp only [alookup]
      rw [if_neg (by rw [he]; exact fun hc => hne hc.symm)]
      exact ih
    · rw [if_pos (by simp [he])]
      simp only [alookup]
      by_cases h0 : k₀ = k'
      · rw [if_pos h0, if_pos h0]
      · rw [if_neg h0, if_neg h0]
        exact ih

theorem aerase_keys_nodup {β : Type} {l : List (Str × β)} {k : Str}
    (h : (l.map (fun p => p.1)).Nodup) :
    ((aerase l k).map (fun p => p.1)).Nodup := by
  unfold aerase
  exact (List.Sublist.map _ (List.filter_sublist l)).nodup h

theorem alookup_of_mem_nodup {β : Type} {l : List (Str × β)} {p : Str × β}
    (hnd : (l.map (fun q => q.1)).Nodup) (hp : p ∈ l) : alookup l p.1 = some p.2 := by
  induction l with
  | nil => simp at hp
  | cons q rest ih =>
    obtain ⟨k₀, v₀⟩ := q
    simp only [List.map_cons, List.nodup_cons] at hnd
    rcases List.mem_cons.mp hp with rfl | hp'
    · simp [alookup]
    · simp only [alookup]
      rw [if_neg ?_]
      · exact ih hnd.2 hp'
      · intro hc
        apply hnd.1
        rw [hc, List.mem_map]
        exact ⟨p, hp', rfl⟩

theorem phase1_id : ∀ (pairs : List (Str × Str)) (otm : List (Str × List Str)),
    (∀ p ∈ pairs, ∃ vs, alookup otm p.2 = some vs ∧ p.1 ∈ vs) →
    validatePhase1 pairs otm = otm := by
  intro pairs
  induction pairs with
  | nil => intro otm h; rfl
  | cons q rest ih =>
    intro otm h
    obtain ⟨value, key⟩ := q
    obtain ⟨vs, hvs, hmem⟩ := h (value, key) (List.mem_cons_self _ _)
    unfold validatePhase1
    dsimp only
    rw [hvs]
    dsimp only
    rw [if_pos hmem]
    exact ih otm (fun p hp => h p (List.mem_cons_of_mem _ hp))

theorem phase3Val_id (key : Str) :
    ∀ (vals : List Str) (otm : List (Str × List Str)) (mto : List (Str × Str)),
      (∀ v ∈ vals, alookup mto v = some key) →
      validatePhase3Val key vals (otm, mto) = (otm, mto) := by
  intro vals
  induction vals with
  | nil => intro otm mto h; rfl
  | cons value rest ih =>
    intro otm mto h
    have hv := h value (List.mem_cons_self _ _)
    unfold validatePhase3Val
    dsimp only
    rw [hv]
    dsimp only
    rw [if_neg (by simp)]
    exact ih otm mto (fun v hv' => h v (List.mem_cons_of_mem _ hv'))

theorem phase3_id : ∀ (ks : List Str) (otm : List (Str × List Str)) (mto : List (Str × Str)),
    (∀ key ∈ ks, ∀ v ∈ (alookup otm key).getD [], alookup mto v = some key) →
    validatePhase3 ks (otm, mto) = (otm, mto) := by
  intro ks
  induction ks with
  | nil => intro otm mto h; rfl
  | cons key rest ih =>
    intro otm mto h
    unfold validatePhase3
    rw [phase3Val_id key _ otm mto (h key (List.mem_cons_self _ _))]
    exact ih otm mto (fun k hk => h k (List.mem_cons_of_mem _ hk))

theorem validate_eq_self {m : BidirectionalMap} (hsc : SC m) : m.validate = m := by
  obtain ⟨hnd1, hnd2, hfwd, hbwd⟩ := hsc
  have h1 : validatePhase1 m.many_to_one m.one_to_many = m.one_to_many :=
    phase1_id _ _ hbwd
  have h2 : m.one_to_many.filter (fun p => p.2 ≠ []) = m.one_to_many := by
    rw [List.filter_eq_self]
    intro p hp
    simpa using (hfwd p hp).1
  have h3 : validatePhase3 (m.one_to_many.map (fun p => p.1))
      (m.one_to_many, m.many_to_one) = (m.one_to_many, m.many_to_one) := by
    apply phase3_id
    intro key hkey v hv
    rw [List.mem_map] at hkey
    obtain ⟨p, hp, rfl⟩ := hkey
    rw [alookup_of_mem_nodup hnd1 hp] at hv
    simp only [Option.getD_some] at hv
    exact (hfwd p hp).2.2 v hv
  show BidirectionalMap.mk _ _ = m
  rw [h1, h2, h3]

theorem SC_insert (otm : List (Str × List Str)) (mto : List (Str × Str)) (k' a' : Str)
    (hnd1 : (otm.map (fun p => p.1)).Nodup)
    (hnd2 : (mto.map (fun p => p.1)).Nodup)
    (hfwd : ∀ p ∈ otm, p.2 ≠ [] ∧ p.2.Nodup ∧
      ∀ v ∈ p.2, v ≠ a' → alookup mto v = some p.1)
    (hnoa : ∀ p ∈ otm, p.1 ≠ k' → a' ∉ p.2)
    (hbwd : ∀ q ∈ mto, q.1 ≠ a' → ∃ vs, alookup otm q.2 = some vs ∧ q.1 ∈ vs) :
    SC ⟨aupdate otm k'
          (if a' ∈ (alookup otm k').getD [] then (alookup otm k').getD []
            else (alookup otm k').getD [] ++ [a']),
        aupdate mto a' k'⟩ := by
  set current := (alookup otm k').getD [] with hcur
  set newSet := if a' ∈ current then current else current ++ [a'] with hnew
  have hsub : ∀ x ∈ current, x ∈ newSet := by
    rw [hnew]
    split
    · exact fun x h => h
    · exact fun x h => List.mem_append_left _ h
  have ha'new : a' ∈ newSet := by
    rw [hnew]
    split
    · assumption
    · exact List.mem_append_right _ (List.mem_singleton.mpr rfl)
  have hnew_of_ne : ∀ x ∈ newSet, x ≠ a' → x ∈ current := by
    rw [hnew]
    split
    · exact fun x h _ => h
    · intro x h hne
      rcases List.mem_append.mp h with h | h
      · exact h
      · exact absurd (List.mem_singleton.mp h) hne
  have hcurprops : current = [] ∨ ((k', current) ∈ otm ∧ current.Nodup ∧
      ∀ v ∈ current, v ≠ a' → alookup mto v = some k') := by
    cases halo : alookup otm k' with
    | none =>
      left
      rw [hcur, halo]
      rfl
    | some vs =>
      right
      have hm := alookup_mem halo
      have hf := hfwd (k', vs) hm
      have hcv : current = vs := by rw [hcur, halo]; rfl
      rw [hcv]
      exact ⟨hm, hf.2.1, hf.2.2⟩
  have hnewnodup : newSet.Nodup := by
    have hcnd : current.Nodup := by
      rcases hcurprops with hc | hc
      · rw [hc]; exact List.nodup_nil
      · exact hc.2.1
    rw [hnew]
    split
    · exact hcnd
    · rename_i hnot
      rw [List.nodup_append]
      exact ⟨hcnd, List.nodup_singleton _, by
        intro x hx
        simp only [List.mem_singleton]
        intro hc
        subst hc
        exact hnot hx⟩
  have hnewne : newSet ≠ [] := by
    intro hc
    rw [hc] at ha'new
    simp at ha'new
  refine ⟨aupdate_keys_nodup hnd1, aupdate_keys_nodup hnd2, ?_, ?_⟩
  · intro p hp
    rcases mem_aupdate hp with heq | ⟨hpm, hpk⟩
    · subst heq
      refine ⟨hnewne, hnewnodup, ?_⟩
      intro v hv
      by_cases hva : v = a'
      · subst hva
        exact alookup_aupdate_self _ _ _
      · have hvc : v ∈ current := hnew_of_ne v hv hva
        rcases hcurprops with hc | hc
        · rw [hc] at hvc; simp at hvc
        · rw [alookup_aupdate_ne _ _ _ _ hva]
          exact hc.2.2 v hvc hva
    · have hf := hfwd p hpm
      refine ⟨hf.1, hf.2.1, ?_⟩
      intro v hv
      have hva : v ≠ a' := by
        intro hc
        subst hc
        exact hnoa p hpm hpk hv
      rw [alookup_aupdate_ne _ _ _ _ hva]
      exact hf.2.2 v hv hva
  · intro q hq
    rcases mem_aupdate hq with heq | ⟨hqm, hqa⟩
    · subst heq
      exact ⟨newSet, alookup_aupdate_self _ _ _, ha'new⟩
    · obtain ⟨vs₀, hvs₀, hqv⟩ := hbwd q hqm hqa
      by_cases hqk : q.2 = k'
      · rw [hqk] at hvs₀
        have hcv : current = vs₀ := by rw [hcur, hvs₀]; rfl
        refine ⟨newSet, ?_, ?_⟩
        · rw [hqk]
          exact alookup_aupdate_self _ _ _
        · exact hsub q.1 (hcv ▸ hqv)
      · exact ⟨vs₀, by rw [alookup_aupdate_ne _ _ _ _ hqk]; exact hvs₀, hqv⟩

theorem SC_add {m : BidirectionalMap} (hsc : SC m) (F a : Str) : SC (m.add F a) := by
  obtain ⟨hnd1, hnd2, hfwd, hbwd⟩ := hsc
  unfold BidirectionalMap.add
  dsimp only
  set k' := strip F with hk'
  set a' := lowerStr (strip a) with ha'
  cases halo : alookup m.many_to_one a' with
  | none =>
    dsimp only
    apply SC_insert m.one_to_many m.many_to_one k' a' hnd1 hnd2
    · intro p hp
      have hf := hfwd p hp
      exact ⟨hf.1, hf.2.1, fun v hv _ => hf.2.2 v hv⟩
    · intro p hp _ hmem
      have := (hfwd p hp).2.2 a' hmem
      rw [halo] at this
      exact absurd this (by simp)
    · intro q hq _
      exact hbwd q hq
  | some K =>
    dsimp only
    by_cases hK : K ≠ k'
    · rw [if_pos hK]
      obtain ⟨vsK, hotmK, hamem⟩ := hbwd (a', K) (alookup_mem halo)
      rw [hotmK]
      dsimp only
      rw [if_pos hamem]
      by_cases hfil : vsK.filter (fun v => v ≠ a') = []
      · rw [if_pos hfil]
        apply SC_insert (aerase m.one_to_many K) m.many_to_one k' a'
          (aerase_keys_nodup hnd1) hnd2
        · intro p hp
          obtain ⟨hpm, hpK⟩ := mem_aerase hp
          have hf := hfwd p hpm
          exact ⟨hf.1, hf.2.1, fun v hv _ => hf.2.2 v hv⟩
        · intro p hp _ hmem
          obtain ⟨hpm, hpK⟩ := mem_aerase hp
          have hthis := (hfwd p hpm).2.2 a' hmem
          rw [halo] at hthis
          injection hthis with hthis
          exact hpK hthis.symm
        · intro q hq hqa
          obtain ⟨vs₀, hvs₀, hqv⟩ := hbwd q hq
          by_cases hqK : q.2 = K
          · exfalso
            rw [hqK, hotmK] at hvs₀
            injection hvs₀ with hvv
            have hqvK : q.1 ∈ vsK := by rw [hvv]; exact hqv
            have hmf : q.1 ∈ vsK.filter (fun v => v ≠ a') :=
              List.mem_filter.mpr ⟨hqvK, by simpa using hqa⟩
            rw [hfil] at hmf
            simp at hmf
          · exact ⟨vs₀, by rw [alookup_aerase_ne hqK]; exact hvs₀, hqv⟩
      · rw [if_neg hfil]
        apply SC_insert (aupdate m.one_to_many K (vsK.filter (fun v => v ≠ a')))
          m.many_to_one k' a' (aupdate_keys_nodup hnd1) hnd2
        · intro p hp
          rcases mem_aupdate hp with heq | ⟨hpm, hpK⟩
          · subst heq
            have hfK := hfwd (K, vsK) (alookup_mem hotmK)
            refine ⟨hfil, List.Nodup.filter _ hfK.2.1, ?_⟩
            intro v hv _
            exact hfK.2.2 v (List.mem_filter.mp hv).1
          · have hf := hfwd p hpm
            exact ⟨hf.1, hf.2.1, fun v hv _ => hf.2.2 v hv⟩
        · intro p hp hpk hmem
          rcases mem_aupdate hp with heq | ⟨hpm, hpK⟩
          · subst heq
            have := (List.mem_filter.mp hmem).2
            simp at this
          · have hthis := (hfwd p hpm).2.2 a' hmem
            rw [halo] at hthis
            injection hthis with hthis
            exact hpK hthis.symm
        · intro q hq hqa
          obtain ⟨vs₀, hvs₀, hqv⟩ := hbwd q hq
          by_cases hqK : q.2 = K
          · rw [hqK, hotmK] at hvs₀
            injection hvs₀ with hvv
            have hqvK : q.1 ∈ vsK := by rw [hvv]; exact hqv
            refine ⟨vsK.filter (fun v => v ≠ a'), ?_, ?_⟩
            · rw [hqK]
              exact alookup_aupdate_self _ _ _
            · exact List.mem_filter.mpr ⟨hqvK, by simpa using hqa⟩
          · exact ⟨vs₀, by rw [alookup_aupdate_ne _ _ _ _ hqK]; exact hvs₀, hqv⟩
    · rw [if_neg hK]
      push_neg at hK
      apply SC_insert m.one_to_many m.many_to_one k' a' hnd1 hnd2
      · intro p hp
        have hf := hfwd p hp
        exact ⟨hf.1, hf.2.1, fun v hv _ => hf.2.2 v hv⟩
      · intro p hp hpk hmem
        have := (hfwd p hp).2.2 a' hmem
        rw [halo] at this
        injection this with this
        exact hpk (this.symm.trans hK)
      · intro q hq _
        exact hbwd q hq

theorem SC_empty : SC BidirectionalMap.empty := by
  refine ⟨?_, ?_, ?_, ?_⟩ <;> simp [BidirectionalMap.empty]

theorem SC_foldl : ∀ (ops : List IndexOp) (m : BidirectionalMap),
    SC m → SC (ops.foldl applyOp m) := by
  intro ops
  induction ops with
  | nil => intro m h; exact h
  | cons op rest ih =>
    intro m h
    rw [List.foldl_cons]
    apply ih
    cases op with
    | add k v => exact SC_add h k v
    | validate =>
      show SC m.validate
      rw [validate_eq_self h]
      exact h

theorem SC_runOps (ops : List IndexOp) : SC (runOps ops) :=
  SC_foldl ops BidirectionalMap.empty SC_empty

/-- C1: after any sequence of `add`/`validate` calls on the initially empty
index, the index is bidirectionally consistent: every alias in `get_values F`
maps back to `F` via `get_key`, and every alias that `get_key` maps to `F` is
a member of `get_values F`. -/
theorem C1_bidirectional_consistency :
    ∀ (ops : List IndexOp) (F aa : Str),
      (aa ∈ (runOps ops).get_values F → (runOps ops).get_key aa = some F) ∧
      ((runOps ops).get_key aa = some F → aa ∈ (runOps ops).get_values F) := by
  intro ops F aa
  have hsc := SC_runOps ops
  set m := runOps ops with hm
  have hval : m.validate = m := validate_eq_self hsc
  have hgv : m.get_values F = (alookup m.one_to_many F).getD [] := by
    unfold BidirectionalMap.get_values
    rw [hval]
  have hgk : m.get_key aa = alookup m.many_to_one aa := by
    unfold BidirectionalMap.get_key
    rw [hval]
  obtain ⟨hnd1, hnd2, hfwd, hbwd⟩ := hsc
  constructor
  · intro hmem
    rw [hgv] at hmem
    cases halo : alookup m.one_to_many F with
    | none => rw [halo] at hmem; simp at hmem
    | some vs =>
      rw [halo] at hmem
      simp only [Option.getD_some] at hmem
      rw [hgk]
      exact (hfwd (F, vs) (alookup_mem halo)).2.2 aa hmem
  · intro hkey
    rw [hgk] at hkey
    obtain ⟨vs, hvs, hmem⟩ := hbwd (aa, F) (alookup_mem hkey)
    rw [hgv, hvs]
    simpa using hmem

/-- Witness for C1 on a one-call sequence. -/
theorem C1_bidirectional_consistency_witness :
    BidirectionalMap.get_key (runOps [IndexOp.add ("Pen".toList) ("vp".toList)])
      ("vp".toList) = some ("Pen".toList) :=
  (C1_bidirectional_consistency [IndexOp.add ("Pen".toList) ("vp".toList)]
    ("Pen".toList) ("vp".toList)).1 (by decide)

/-! ### Claim C7 — exact formal matches rank ahead of fuzzy candidates -/

theorem fuzzRatio_le_100 (s t : Str) : fuzzRatio s t ≤ 100 := by
  unfold fuzzRatio
  dsimp only
  split
  · exact le_refl _
  · rename_i hL
    set L := s.length + t.length with hLdef
    have hL' : 0 < L := Nat.pos_of_ne_zero hL
    have h1 : L - lev2 s t ≤ L := Nat.sub_le _ _
    have h3 : (200 * (L - lev2 s t) + L) / (2 * L) < 101 := by
      rw [Nat.div_lt_iff_lt_mul (by omega)]
      omega
    omega

theorem foldr_max_le {l : List Nat} (h : ∀ x ∈ l, x ≤ 100) : l.foldr max 0 ≤ 100 := by
  induction l with
  | nil => simp
  | cons x rest ih =>
    simp only [List.foldr_cons]
    exact max_le (h x (List.mem_cons_self _ _))
      (ih (fun y hy => h y (List.mem_cons_of_mem _ hy)))

theorem fuzzPartialRatio_le_100 (s t : Str) : fuzzPartialRatio s t ≤ 100 := by
  unfold fuzzPartialRatio
  dsimp only
  apply foldr_max_le
  intro x hx
  rw [List.mem_map] at hx
  obtain ⟨i, -, rfl⟩ := hx
  exact fuzzRatio_le_100 _ _

theorem natCast_max_le_100 {a b : Nat} (ha : a ≤ 100) (hb : b ≤ 100) :
    ((max a b : Nat) : ℚ) ≤ 100 := by
  have : max a b ≤ 100 := max_le ha hb
  exact_mod_cast this

theorem fuzzyCandidateScore_le_100 (w st sub : ℚ) (hw : w ≤ 100) (hst : st ≤ 100)
    (hsub : sub ≤ 100) (inputLen : Nat) (q c : Str) :
    fuzzyCandidateScore w st sub inputLen q c ≤ 100 := by
  unfold fuzzyCandidateScore
  dsimp only
  split
  · split
    · exact hw
    · split
      · exact hst
      · exact hsub
  · set diff : Int := (q.length : Int) - (c.length : Int) with hdiff
    have hr : (fuzzRatio q c : ℚ) ≤ 100 := by exact_mod_cast fuzzRatio_le_100 q c
    have hr0 : (0 : ℚ) ≤ (fuzzRatio q c : ℚ) := Nat.cast_nonneg _
    have hmx : ((max (fuzzRatio q c) (fuzzPartialRatio q c) : Nat) : ℚ) ≤ 100 :=
      natCast_max_le_100 (fuzzRatio_le_100 q c) (fuzzPartialRatio_le_100 q c)
    have hmx0 : (0 : ℚ) ≤ ((max (fuzzRatio q c) (fuzzPartialRatio q c) : Nat) : ℚ) :=
      Nat.cast_nonneg _
    split
    · rename_i hd
      have hd0 : (0 : ℚ) ≤ (diff : ℚ) := by exact_mod_cast (by omega : (0 : Int) ≤ diff)
      have hp1 : max (1/2 : ℚ) (1 - (diff : ℚ) * (5/100)) ≤ 1 := by
        apply max_le
        · norm_num
        · nlinarith
      have hp0 : (0 : ℚ) ≤ max (1/2 : ℚ) (1 - (diff : ℚ) * (5/100)) :=
        le_trans (by norm_num) (le_max_left _ _)
      calc (fuzzRatio q c : ℚ) * max (1/2 : ℚ) (1 - (diff : ℚ) * (5/100))
          ≤ (fuzzRatio q c : ℚ) * 1 := mul_le_mul_of_nonneg_left hp1 hr0
        _ = (fuzzRatio q c : ℚ) := mul_one _
        _ ≤ 100 := hr
    · split
      · rename_i hd
        have hd0 : (0 : ℚ) ≤ (diff : ℚ) := by exact_mod_cast (by omega : (0 : Int) ≤ diff)
        have hp1 : max (4/5 : ℚ) (1 - (diff : ℚ) * (1/10)) ≤ 1 := by
          apply max_le
          · norm_num
          · nlinarith
        have hp0 : (0 : ℚ) ≤ max (4/5 : ℚ) (1 - (diff : ℚ) * (1/10)) :=
          le_trans (by norm_num) (le_max_left _ _)
        calc ((max (fuzzRatio q c) (fuzzPartialRatio q c) : Nat) : ℚ)
              * max (4/5 : ℚ) (1 - (diff : ℚ) * (1/10))
            ≤ ((max (fuzzRatio q c) (fuzzPartialRatio q c) : Nat) : ℚ) * 1 :=
              mul_le_mul_of_nonneg_left hp1 hmx0
          _ = ((max (fuzzRatio q c) (fuzzPartialRatio q c) : Nat) : ℚ) := mul_one _
          _ ≤ 100 := hmx
      · exact hmx

theorem tier4Loop_cases (q : Str) : ∀ cs : List Str,
    tier4Loop q cs = none ∨ tier4Loop q cs = some (97, MatchType.normalized_alias) ∨
      tier4Loop q cs = some (96, MatchType.exact_word_match) := by
  intro cs
  induction cs with
  | nil => exact Or.inl rfl
  | cons c rest ih =>
    unfold tier4Loop
    dsimp only
    split
    · exact Or.inr (Or.inl rfl)
    · split
      · exact Or.inr (Or.inr rfl)
      · exact ih

theorem foldl_max_le {f : Str → ℚ} {l : List Str} (hf : ∀ c, f c ≤ 100) :
    ∀ start : ℚ, start ≤ 100 → l.foldl (fun acc c => max acc (f c)) start ≤ 100 := by
  induction l with
  | nil => intro start h; exact h
  | cons c rest ih =>
    intro start h
    rw [List.foldl_cons]
    exact ih _ (max_le h (hf c))

theorem candidateScore_le_100 (pm : BidirectionalMap) (q F : Str) :
    (candidateScore pm q F).1 ≤ 100 := by
  unfold candidateScore
  dsimp only
  set nq := normalize_text q
  set ql := strip (lowerStr q)
  set casuals := pm.get_values F
  have h1 : (tier1Score ql F).1 ≤ 100 := by
    unfold tier1Score
    split <;> norm_num
  have h2 : (tier2Score ql casuals (tier1Score ql F)).1 ≤ 100 := by
    unfold tier2Score
    split
    · split
      · norm_num
      · exact h1
    · exact h1
  have h3 : (tier3Score nq F (tier2Score ql casuals (tier1Score ql F))).1 ≤ 100 := by
    unfold tier3Score
    split
    · split
      · norm_num
      · exact h2
    · exact h2
  have h4 : (tier4Score nq casuals
      (tier3Score nq F (tier2Score ql casuals (tier1Score ql F)))).1 ≤ 100 := by
    unfold tier4Score
    split
    · rcases tier4Loop_cases nq casuals with hc | hc | hc <;> rw [hc]
      · exact h3
      · norm_num
      · norm_num
    · exact h3
  have h5 : (tier5Score nq F (tier4Score nq casuals
      (tier3Score nq F (tier2Score ql casuals (tier1Score ql F))))).1 ≤ 100 := by
    unfold tier5Score
    split
    · split
      · norm_num
      · exact h4
    · exact h4
  unfold tier6Score
  split
  · rename_i hlt
    refine max_le ?_ ?_
    · apply foldl_max_le
      · intro c
        exact fuzzyCandidateScore_le_100 94 90 80 (by norm_num) (by norm_num) (by norm_num) _ _ _
      · linarith
    · exact fuzzyCandidateScore_le_100 93 89 79 (by norm_num) (by norm_num) (by norm_num) _ _ _
  · exact h5

theorem candidateScore_exact (pm : BidirectionalMap) (q F : Str)
    (h : lowerStr F = strip (lowerStr q)) :
    candidateScore pm q F = (100, MatchType.exact_formal) := by
  unfold candidateScore
  dsimp only
  rw [show tier1Score (strip (lowerStr q)) F = (100, MatchType.exact_formal) by
    unfold tier1Score; rw [if_pos h]]
  rw [show tier2Score (strip (lowerStr q)) (pm.get_values F) (100, MatchType.exact_formal)
      = (100, MatchType.exact_formal) by
    unfold tier2Score; rw [if_neg (by norm_num)]]
  rw [show tier3Score (normalize_text q) F (100, MatchType.exact_formal)
      = (100, MatchType.exact_formal) by
    unfold tier3Score; rw [if_neg (by norm_num)]]
  rw [show tier4Score (normalize_text q) (pm.get_values F) (100, MatchType.exact_formal)
      = (100, MatchType.exact_formal) by
    unfold tier4Score; rw [if_neg (by norm_num)]]
  rw [show tier5Score (normalize_text q) F (100, MatchType.exact_formal)
      = (100, MatchType.exact_formal) by
    unfold tier5Score; rw [if_neg (by norm_num)]]
  unfold tier6Score
  rw [if_neg (by norm_num)]

theorem insertLe_perm {α : Type} (le : α → α → Bool) (x : α) :
    ∀ l : List α, (insertLe le x l).Perm (x :: l) := by
  intro l
  induction l with
  | nil => exact List.Perm.refl _
  | cons y ys ih =>
    unfold insertLe
    split
    · exact List.Perm.refl _
    · exact (List.Perm.cons y ih).trans (List.Perm.swap x y ys)

theorem stableSort_perm {α : Type} (le : α → α → Bool) :
    ∀ l : List α, (stableSort le l).Perm l := by
  intro l
  induction l with
  | nil => exact List.Perm.refl _
  | cons x xs ih =>
    unfold stableSort
    exact (insertLe_perm le x (stableSort le xs)).trans (List.Perm.cons x ih)

theorem mem_insertLe {α : Type} {le : α → α → Bool} {x z : α} {l : List α}
    (h : z ∈ insertLe le x l) : z = x ∨ z ∈ l := by
  have := (insertLe_perm le x l).mem_iff.mp h
  simpa using this

theorem insertLe_pairwise {α : Type} {le : α → α → Bool}
    (htrans : ∀ a b c, le a b = true → le b c = true → le a c = true)
    (htot : ∀ a b, le a b = true ∨ le b a = true) (x : α) :
    ∀ l : List α, l.Pairwise (fun a b => le a b = true) →
      (insertLe le x l).Pairwise (fun a b => le a b = true) := by
  intro l
  induction l with
  | nil => intro _; exact List.pairwise_singleton _ _
  | cons y ys ih =>
    intro h
    rw [List.pairwise_cons] at h
    unfold insertLe
    split
    · rename_i hxy
      rw [List.pairwise_cons]
      refine ⟨?_, List.pairwise_cons.mpr h⟩
      intro z hz
      rcases List.mem_cons.mp hz with rfl | hz'
      · exact hxy
      · exact htrans x y z hxy (h.1 z hz')
    · rename_i hxy
      have hyx : le y x = true := by
        rcases htot x y with hc | hc
        · exact absurd hc hxy
        · exact hc
      rw [List.pairwise_cons]
      refine ⟨?_, ih h.2⟩
      intro z hz
      rcases mem_insertLe hz with rfl | hz'
      · exact hyx
      · exact h.1 z hz'

theorem stableSort_pairwise {α : Type} {le : α → α → Bool}
    (htrans : ∀ a b c, le a b = true → le b c = true → le a c = true)
    (htot : ∀ a b, le a b = true ∨ le b a = true) :
    ∀ l : List α, (stableSort le l).Pairwise (fun a b => le a b = true) := by
  intro l
  induction l with
  | nil => exact List.Pairwise.nil
  | cons x xs ih =>
    unfold stableSort
    exact insertLe_pairwise htrans htot x _ ih

theorem candLe_trans : ∀ a b c : Str × ℚ × MatchType,
    candLe a b = true → candLe b c = true → candLe a c = true := by
  intro a b c hab hbc
  unfold candLe at *
  rw [decide_eq_true_eq] at hab hbc ⊢
  rcases hab with h1 | ⟨h1, h1'⟩
  · rcases hbc with h2 | ⟨h2, h2'⟩
    · exact Or.inl (lt_trans h2 h1)
    · exact Or.inl (h2 ▸ h1)
  · rcases hbc with h2 | ⟨h2, h2'⟩
    · exact Or.inl (h1 ▸ h2)
    · exact Or.inr ⟨h1.trans h2, le_trans h1' h2'⟩

theorem candLe_total : ∀ a b : Str × ℚ × MatchType,
    candLe a b = true ∨ candLe b a = true := by
  intro a b
  unfold candLe
  rw [decide_eq_true_eq, decide_eq_true_eq]
  rcases lt_trichotomy a.2.1 b.2.1 with h | h | h
  · exact Or.inr (Or.inl h)
  · rcases le_total (match_type_priority a.2.2) (match_type_priority b.2.2) with hp | hp
    · exact Or.inl (Or.inr ⟨h, hp⟩)
    · exact Or.inr (Or.inr ⟨h.symm, hp⟩)
  · exact Or.inl (Or.inl h)

theorem not_candLe_fuzzy_exact {G F : Str} {sG : ℚ} (h : sG ≤ 100) :
    ¬ candLe (G, sG, MatchType.fuzzy) (F, 100, MatchType.exact_formal) = true := by
  unfold candLe
  rw [decide_eq_true_eq]
  rintro (hc | ⟨hc, hc'⟩)
  · dsimp only at hc
    linarith
  · dsimp only at hc'
    simp [match_type_priority] at hc'

/-- C7: if some indexed formal name `F` equals the query case-insensitively,
then (for a threshold of at most 100, so that `F` survives the cutoff) `F`
appears in the list returned by `find_matching_pen_names` ahead of every
returned candidate whose match is of the fuzzy tier, regardless of the fuzzy
candidates' scores. -/
theorem C7_exact_formal_ranks_before_fuzzy (pm : BidirectionalMap) (q : Str)
    (n : Nat) (t : ℚ) (F G : Str) (hq : q ≠ []) (ht : t ≤ 100)
    (hF : F ∈ pm.keysList) (hlow : lowerStr F = strip (lowerStr q))
    (hG : G ∈ find_matching_pen_names pm q n t)
    (hGfuzzy : (candidateScore pm q G).2 = MatchType.fuzzy) :
    ∃ i j : Nat, i < j ∧ (find_matching_pen_names pm q n t)[i]? = some F ∧
      (find_matching_pen_names pm q n t)[j]? = some G := by
  set eff := if q.length ≤ 4 then max t 85 else t with heffdef
  have heff : eff ≤ 100 := by
    rw [heffdef]
    split
    · exact max_le ht (by norm_num)
    · exact ht
  set scores := pm.keysList.filterMap (fun f =>
    if eff ≤ (candidateScore pm q f).1 then some (f, candidateScore pm q f) else none)
    with hscoresdef
  have hresult : find_matching_pen_names pm q n t
      = ((stableSort candLe scores).take n).map (fun p => p.1) := by
    unfold find_matching_pen_names
    rw [if_neg hq]
  have hentry : ∀ e ∈ scores, e.2 = candidateScore pm q e.1 ∧ eff ≤ e.2.1 := by
    intro e he
    rw [hscoresdef, List.mem_filterMap] at he
    obtain ⟨a, _, hfa⟩ := he
    split at hfa
    · rename_i hcond
      injection hfa with hfa
      subst hfa
      exact ⟨rfl, hcond⟩
    · exact absurd hfa (by simp)
  have hFmem : (F, (100 : ℚ), MatchType.exact_formal) ∈ scores := by
    rw [hscoresdef, List.mem_filterMap]
    refine ⟨F, hF, ?_⟩
    rw [candidateScore_exact pm q F hlow]
    rw [if_pos (show eff ≤ ((100 : ℚ), MatchType.exact_formal).1 from heff)]
  set sorted := stableSort candLe scores with hsorteddef
  have hpw : sorted.Pairwise (fun a b => candLe a b = true) :=
    stableSort_pairwise candLe_trans candLe_total scores
  have hperm : sorted.Perm scores := stableSort_perm candLe scores
  have hFmem' : (F, (100 : ℚ), MatchType.exact_formal) ∈ sorted := hperm.mem_iff.mpr hFmem
  obtain ⟨i, hi⟩ := List.mem_iff_getElem?.mp hFmem'
  rw [hresult] at hG
  obtain ⟨j, hj⟩ := List.mem_iff_getElem?.mp hG
  rw [List.getElem?_map] at hj
  cases hjt : (sorted.take n)[j]? with
  | none =>
    rw [hjt] at hj
    exact absurd hj (by simp)
  | some e =>
    rw [hjt] at hj
    simp only [Option.map_some', Option.some.injEq] at hj
    rw [List.getElem?_take] at hjt
    split at hjt
    · rename_i hjn
      obtain ⟨eG, esc, emt⟩ := e
      dsimp only at hj
      subst hj
      have hemem : (eG, esc, emt) ∈ sorted := by
        obtain ⟨hjlen, hjget⟩ := List.getElem?_eq_some.mp hjt
        exact hjget ▸ List.getElem_mem hjlen
      obtain ⟨he2, heffG⟩ := hentry _ (hperm.mem_iff.mp hemem)
      dsimp only at he2
      have hsc : esc = (candidateScore pm q eG).1 := by rw [← he2]
      have hmt : emt = MatchType.fuzzy := by
        rw [← he2] at hGfuzzy
        exact hGfuzzy
      have hsc100 : esc ≤ 100 := by
        rw [hsc]
        exact candidateScore_le_100 pm q eG
      have hij : i < j := by
        rcases lt_trichotomy i j with h | h | h
        · exact h
        · exfalso
          subst h
          rw [hi] at hjt
          injection hjt with hjt
          have := congrArg (fun p => p.2.2) hjt
          dsimp only at this
          rw [hmt] at this
          exact absurd this (by simp)
        · exfalso
          obtain ⟨hilen, higet⟩ := List.getElem?_eq_some.mp hi
          obtain ⟨hjlen, hjget⟩ := List.getElem?_eq_some.mp hjt
          have hrel := List.pairwise_iff_get.mp hpw ⟨j, hjlen⟩ ⟨i, hilen⟩ h
          rw [List.get_eq_getElem, List.get_eq_getElem, higet, hjget] at hrel
          rw [hmt] at hrel
          exact not_candLe_fuzzy_exact hsc100 hrel
      refine ⟨i, j, hij, ?_, ?_⟩
      · rw [hresult, List.getElem?_map, List.getElem?_take, if_pos (lt_trans hij hjn), hi]
        rfl
      · rw [hresult, List.getElem?_map, List.getElem?_take, if_pos hjn, hjt]
        rfl
    · exact absurd hjt (by simp)

/-- Witness for C7: `"abcde"` matches formal name `"abcde"` exactly while
`"abcdx"` scores 80 in the fuzzy tier; the exact match is returned first. -/
theorem C7_exact_formal_ranks_before_fuzzy_witness :
    ∃ i j : Nat, i < j ∧
      (find_matching_pen_names
        ((BidirectionalMap.empty.add ("abcde".toList) ("abcde".toList)).add
          ("abcdx".toList) ("abcdx".toList)) ("abcde".toList) 4 75)[i]?
        = some ("abcde".toList) ∧
      (find_matching_pen_names
        ((BidirectionalMap.empty.add ("abcde".toList) ("abcde".toList)).add
          ("abcdx".toList) ("abcdx".toList)) ("abcde".toList) 4 75)[j]?
        = some ("abcdx".toList) :=
  C7_exact_formal_ranks_before_fuzzy
    ((BidirectionalMap.empty.add ("abcde".toList) ("abcde".toList)).add
      ("abcdx".toList) ("abcdx".toList)) ("abcde".toList) 4 75
    ("abcde".toList) ("abcdx".toList) (by decide) (by norm_num) (by decide) (by decide)
    (by decide) (by decide)
